import Mathlib

/-!
# Verification of the folder-galaxy scanning engine

Shallow embedding of `src/main/scan/scanDirectory.ts` (together with the
type classifier of `fileTypes.ts` and the data contracts of
`shared/types.ts`), and proofs of the specified properties of the scan
engine.

Modelling conventions:
* Filesystem calls (`fs.realpath`, `fs.readdir`, `fs.lstat`, `fs.stat`)
  are oracles packaged in an `FS` value.  A call that would reject in
  Node is an oracle returning `none`.
* The `readdir` oracle is a finite association list; this finiteness is
  what makes the recursion of the walker terminate, and the fuel bound
  chosen in `scanDirectory` is proved never to run out.
* JavaScript numbers are modelled as `Nat` (sizes and counts only grow by
  small additions; no overflow behaviour is relevant here) except the
  `maxDepth` option which the spec allows to be non-positive, hence `Int`.
* A `Partial Record` breakdown object is modelled as a record with one
  `TypeBreakdownEntry` per category, an absent key being the zero entry;
  every property stated about breakdowns is entrywise, so this
  abstraction is faithful.
-/

/-- `FileTypeGroup` from `shared/types.ts`: the closed set of categories. -/
inductive FileTypeGroup where
  | video | image | audio | document | code | archive | other
deriving DecidableEq, Repr

/-- `TypeBreakdownEntry` from `shared/types.ts`. -/
structure TypeBreakdownEntry where
  size : Nat
  count : Nat
deriving DecidableEq, Repr

/-- A breakdown object (`TB = Partial Record<FileTypeGroup, TypeBreakdownEntry>`
in the source), one entry per category, absent key = zero entry. -/
structure TB where
  video : TypeBreakdownEntry := ⟨0, 0⟩
  image : TypeBreakdownEntry := ⟨0, 0⟩
  audio : TypeBreakdownEntry := ⟨0, 0⟩
  document : TypeBreakdownEntry := ⟨0, 0⟩
  code : TypeBreakdownEntry := ⟨0, 0⟩
  archive : TypeBreakdownEntry := ⟨0, 0⟩
  other : TypeBreakdownEntry := ⟨0, 0⟩
deriving DecidableEq, Repr

def tbZero : TB := {}

/-- Read one category of a breakdown. -/
def tbGet (tb : TB) : FileTypeGroup → TypeBreakdownEntry
  | .video => tb.video
  | .image => tb.image
  | .audio => tb.audio
  | .document => tb.document
  | .code => tb.code
  | .archive => tb.archive
  | .other => tb.other

def entryAdd (a b : TypeBreakdownEntry) : TypeBreakdownEntry :=
  ⟨a.size + b.size, a.count + b.count⟩

/-- `addFileToBreakdown(tb, group, size)`: the entry of `group` gains
`size` bytes and one file. -/
def addFileToBreakdown (tb : TB) (group : FileTypeGroup) (size : Nat) : TB :=
  match group with
  | .video => { tb with video := entryAdd tb.video ⟨size, 1⟩ }
  | .image => { tb with image := entryAdd tb.image ⟨size, 1⟩ }
  | .audio => { tb with audio := entryAdd tb.audio ⟨size, 1⟩ }
  | .document => { tb with document := entryAdd tb.document ⟨size, 1⟩ }
  | .code => { tb with code := entryAdd tb.code ⟨size, 1⟩ }
  | .archive => { tb with archive := entryAdd tb.archive ⟨size, 1⟩ }
  | .other => { tb with other := entryAdd tb.other ⟨size, 1⟩ }

/-- `mergeBreakdown(into, from)`: entrywise sum. -/
def mergeBreakdown (into from_ : TB) : TB :=
  { video := entryAdd into.video from_.video
    image := entryAdd into.image from_.image
    audio := entryAdd into.audio from_.audio
    document := entryAdd into.document from_.document
    code := entryAdd into.code from_.code
    archive := entryAdd into.archive from_.archive
    other := entryAdd into.other from_.other }

/-! ## Type classifier (`fileTypes.ts`) -/

/-- Pairs `(extension, group)` for one `map(exts, group)` call of
`fileTypes.ts`. -/
def extPairs (exts : List String) (g : FileTypeGroup) :
    List (String × FileTypeGroup) :=
  exts.map fun e => (e, g)

/-- The static extension table built by the `map` calls in `fileTypes.ts`. -/
def EXT_MAP : List (String × FileTypeGroup) :=
  extPairs ["mp4", "mkv", "avi", "mov", "wmv", "flv", "webm", "m4v", "ts"]
    FileTypeGroup.video ++
  extPairs ["jpg", "jpeg", "png", "gif", "bmp", "svg", "webp", "tif",
    "tiff", "heic", "heif", "ico", "raw", "cr2", "nef", "arw"]
    FileTypeGroup.image ++
  extPairs ["mp3", "wav", "flac", "aac", "ogg", "m4a", "wma", "aiff",
    "alac", "opus"] FileTypeGroup.audio ++
  extPairs ["pdf", "doc", "docx", "ppt", "pptx", "xls", "xlsx", "csv",
    "md", "txt", "rtf", "odt", "ods", "odp", "epub"]
    FileTypeGroup.document ++
  extPairs ["js", "ts", "tsx", "jsx", "mjs", "cjs", "json", "yml", "yaml",
    "xml", "html", "css", "scss", "less", "vue", "svelte", "py", "java",
    "kt", "c", "h", "cpp", "hpp", "cs", "go", "rb", "rs", "php", "sql",
    "swift", "r", "ipynb", "sh", "bat", "ps1", "toml", "ini", "gradle"]
    FileTypeGroup.code ++
  extPairs ["zip", "rar", "7z", "tar", "gz", "bz2", "xz", "lz", "lz4",
    "zst", "iso", "dmg", "cab"] FileTypeGroup.archive

/-- Split a character list on `/` (the list-level counterpart of
`String.splitOn "/"`, restated on `List Char` so that it evaluates by
kernel reduction). -/
def splitSlash : List Char → List (List Char)
  | [] => [[]]
  | c :: cs =>
    let r := splitSlash cs
    if c = '/' then [] :: r
    else
      match r with
      | [] => [[c]]
      | h :: t => (c :: h) :: t

/-- Last path component of `p` (`path.basename`), separators dropped;
empty for the filesystem root. -/
def basename (p : String) : String :=
  String.mk (((((splitSlash p.data).filter (fun s => s ≠ [])).getLast?)).getD [])

/-- `toLowerCase`, restated on the character list. -/
def lowerStr (s : String) : String :=
  String.mk (s.data.map Char.toLower)

/-- Characters after the last dot of `cs`, if any. -/
def afterLastDot : List Char → Option (List Char)
  | [] => none
  | c :: cs =>
    match afterLastDot cs with
    | some r => some r
    | none => if c = '.' then some cs else none

/-- `path.extname(filePath).toLowerCase().replace(/^\./, "")`: the
lowercased extension without its dot.  A leading dot of the basename is
not an extension separator (Node semantics). -/
def extOf (filePath : String) : String :=
  match (basename filePath).data with
  | [] => ""
  | _ :: rest =>
    match afterLastDot rest with
    | some r => lowerStr (String.mk r)
    | none => ""

/-- `getFileTypeGroup`: lowercased extension looked up in the static
table, `other` when unmatched.  A later `map` call overwrites an earlier
binding of the same key in the source object (this happens for `ts`,
listed under both video and code), hence the lookup in the reversed
table. -/
def getFileTypeGroup (filePath : String) : FileTypeGroup :=
  (EXT_MAP.reverse.lookup (extOf filePath)).getD .other

/-- `isHiddenName`: dotfiles and a fixed set of well-known noise files. -/
def isHiddenName (name : String) : Bool :=
  match name.data with
  | [] => false
  | c :: _ =>
    if c = '.' then true
    else
      let lower := lowerStr name
      lower = "thumbs.db" || lower = "desktop.ini" || lower = "$recycle.bin"

/-! ## Filesystem model -/

/-- Result of `lstat` / `stat`. -/
structure Stat where
  isDirectory : Bool
  isFile : Bool
  size : Nat
deriving DecidableEq, Repr

/-- One entry of a `readdir(..., { withFileTypes: true })` listing. -/
structure Dirent where
  name : String
  isSymbolicLink : Bool
  isDirectory : Bool
  isFile : Bool
deriving DecidableEq, Repr

/-- The filesystem oracles consumed by the scanner.  `realpath p = none`
models a rejecting `fs.realpath` (the source falls back to `p` itself);
`readdir` is a finite table, a missing key modelling a rejecting
`fs.readdir` (permission error); `lstat` backs `statSafe`, `stat` backs
`fs.stat`, `none` modelling rejection. -/
structure FS where
  realpath : String → Option String
  readdir : List (String × List Dirent)
  lstat : String → Option Stat
  stat : String → Option Stat

/-- `fs.realpath(p).catch(() => p)`. -/
def canon (fs : FS) (p : String) : String :=
  (fs.realpath p).getD p

/-- Association-list lookup used for the `readdir` table. -/
def lookupDir : List (String × List Dirent) → String → Option (List Dirent)
  | [], _ => none
  | (k, v) :: rest, p => if k = p then some v else lookupDir rest p

/-- `path.join(dirPath, name)` for the already-normalized paths the
walker builds. -/
def joinPath (dirPath name : String) : String :=
  dirPath ++ "/" ++ name

/-- `makeId`: stands in for the truncated sha1 digest of the full path.
Modelled as the path itself; no theorem below uses any property of the
digest beyond being a deterministic function of the path. -/
def makeId (fullPath : String) : String := fullPath

/-! ## Shared data contracts (`shared/types.ts`) -/

/-- `ScanOptions`. -/
structure ScanOptions where
  rootPath : String
  maxDepth : Option Int := none
  followSymlinks : Option Bool := none
  includeHidden : Option Bool := none
  includeFiles : Option Bool := none
  includeSystem : Option Bool := none
  concurrency : Option Nat := none
  softFileLimit : Option Nat := none
  scanId : Option String := none

/-- `FolderStats`. -/
structure FolderStats where
  id : String
  path : String
  name : String
  depth : Nat
  totalSize : Nat
  fileCount : Nat
  subfolderCount : Nat
  typeBreakdown : TB
  childrenIds : List String
deriving DecidableEq, Repr

/-- `FileStats`. -/
structure FileStats where
  id : String
  path : String
  name : String
  parentId : String
  depth : Nat
  size : Nat
  type : FileTypeGroup
deriving DecidableEq, Repr

/-- `ScanResult`.  `generatedAt` is a wall-clock timestamp in the source
(`new Date().toISOString()`); it is abstracted to the empty string. -/
structure ScanResult where
  rootPath : String
  generatedAt : String
  folders : List FolderStats
  totalSize : Nat
  totalFileCount : Nat
  files : Option (List FileStats) := none
deriving DecidableEq, Repr

/-- The internal `FolderNode` of the walker. -/
inductive FolderNode where
  | mk (id path name : String) (depth : Nat) (children : List FolderNode)
      (directSize directFileCount : Nat) (typeBreakdown : TB)

def FolderNode.id : FolderNode → String
  | .mk i _ _ _ _ _ _ _ => i

def FolderNode.path : FolderNode → String
  | .mk _ p _ _ _ _ _ _ => p

def FolderNode.name : FolderNode → String
  | .mk _ _ n _ _ _ _ _ => n

def FolderNode.depth : FolderNode → Nat
  | .mk _ _ _ d _ _ _ _ => d

def FolderNode.children : FolderNode → List FolderNode
  | .mk _ _ _ _ cs _ _ _ => cs

def FolderNode.directSize : FolderNode → Nat
  | .mk _ _ _ _ _ ds _ _ => ds

def FolderNode.directFileCount : FolderNode → Nat
  | .mk _ _ _ _ _ _ dc _ => dc

def FolderNode.typeBreakdown : FolderNode → TB
  | .mk _ _ _ _ _ _ _ tb => tb

/-- Constants of `scanDirectory.ts`. -/
def DEFAULT_MAX_DEPTH : Int := 2

def MAX_FILE_THRESHOLD : Nat := 10000

/-- Failure kinds of the modelled scan.  The source signals failures by
throwing: an invalid root (its own `Error`), or a rejected `readdir` in
`walk` (a Node system error, not caught there).  `fuelOut` is an
artifact of the embedding; `walk_no_fuelOut` below proves it never
occurs. -/
inductive ScanErr where
  | rootNotDirectory
  | readdirFailed
  | fuelOut
deriving DecidableEq, Repr

/-- Accumulator of `sumAllBelow` (its `size`, `count`, `tb` locals). -/
structure SumAcc where
  size : Nat
  count : Nat
  tb : TB
deriving DecidableEq, Repr

mutual

/-- `sumAllBelow(dirPath)`: recursively total everything below a
directory into size/count/breakdown, without emitting nodes.  The
`visited` list models the scan-shared `visitedRealPaths` set, `counter`
the scan-shared `fileCounter.count`.  A rejected `readdir` is caught and
yields the zero accumulator (the locals are still zero at that point).
Defined with `followSymlinks`/`includeHidden` only: the source closure
never reads `maxDepth`.  Every recursive call consumes one unit of
fuel, an artifact of the embedding; `scanDirectory` allots enough fuel
and `scanDirectory_no_fuelOut` proves the `fuelOut` branch unreachable,
which is the termination of the source recursion. -/
def sumAllBelow (fs : FS) (followSymlinks includeHidden : Bool) :
    Nat → String → List String → Nat →
    Except ScanErr (SumAcc × List String × Nat)
  | 0, _, _, _ => .error .fuelOut
  | fuel + 1, dirPath, visited, counter =>
    let real := canon fs dirPath
    if real ∈ visited then .ok (⟨0, 0, tbZero⟩, visited, counter)
    else
      let visited1 := real :: visited
      match lookupDir fs.readdir dirPath with
      | none => .ok (⟨0, 0, tbZero⟩, visited1, counter)
      | some entries =>
        sumEntries fs followSymlinks includeHidden fuel entries dirPath
          visited1 counter
termination_by structural fuel _ _ _ => fuel

/-- One iteration of the `sumAllBelow` entry loop: the contribution of
entry `e` of `dirPath` (a skipped entry contributes the zero
accumulator). -/
def sumEntryOne (fs : FS) (followSymlinks includeHidden : Bool) :
    Nat → Dirent → String → List String → Nat →
    Except ScanErr (SumAcc × List String × Nat)
  | 0, _, _, _, _ => .error .fuelOut
  | fuel + 1, e, dirPath, visited, counter =>
    if !includeHidden && isHiddenName e.name then
      .ok (⟨0, 0, tbZero⟩, visited, counter)
    else
      let full := joinPath dirPath e.name
      if e.isSymbolicLink then
        if !followSymlinks then .ok (⟨0, 0, tbZero⟩, visited, counter)
        else
          let realp := canon fs full
          match fs.lstat realp with
          | none => .ok (⟨0, 0, tbZero⟩, visited, counter)
          | some st =>
            if st.isDirectory then
              sumAllBelow fs followSymlinks includeHidden fuel realp
                visited counter
            else if st.isFile then
              .ok (⟨st.size, 1,
                    addFileToBreakdown tbZero (getFileTypeGroup full)
                      st.size⟩, visited, counter + 1)
            else .ok (⟨0, 0, tbZero⟩, visited, counter)
      else if e.isDirectory then
        sumAllBelow fs followSymlinks includeHidden fuel full visited
          counter
      else if e.isFile then
        match fs.stat full with
        | none => .ok (⟨0, 0, tbZero⟩, visited, counter)
        | some st =>
          .ok (⟨st.size, 1,
                addFileToBreakdown tbZero (getFileTypeGroup full)
                  st.size⟩, visited, counter + 1)
      else .ok (⟨0, 0, tbZero⟩, visited, counter)
termination_by structural fuel _ _ _ _ => fuel

/-- The entry loop of `sumAllBelow`, written as a recursion returning
the contribution of the remaining entries (the source accumulates into
mutable locals; addition being associative and commutative, the two
presentations agree entrywise). -/
def sumEntries (fs : FS) (followSymlinks includeHidden : Bool) :
    Nat → List Dirent → String → List String → Nat →
    Except ScanErr (SumAcc × List String × Nat)
  | _, [], _, visited, counter => .ok (⟨0, 0, tbZero⟩, visited, counter)
  | 0, _ :: _, _, _, _ => .error .fuelOut
  | fuel + 1, e :: rest, dirPath, visited, counter => do
    let (one, v1, c1) ←
      sumEntryOne fs followSymlinks includeHidden fuel e dirPath visited
        counter
    let (acc, v2, c2) ←
      sumEntries fs followSymlinks includeHidden fuel rest dirPath v1 c1
    .ok (⟨one.size + acc.size, one.count + acc.count,
          mergeBreakdown one.tb acc.tb⟩, v2, c2)
termination_by structural fuel _ _ _ _ => fuel

end

/-- Contribution of the remaining entries to the node under
construction in `walk`: children to attach plus additions to the direct
statistics. -/
structure WalkAcc where
  children : List FolderNode
  directSize : Nat
  directFileCount : Nat
  tb : TB

mutual

/-- `walk(currentPath, depth)`: builds a `FolderNode`.  Note line 146 of
the source: the `readdir` there is not wrapped in try/catch, so its
rejection propagates and fails the scan (`ScanErr.readdirFailed`). -/
def walk (fs : FS) (maxDepth : Int) (followSymlinks includeHidden : Bool) :
    Nat → String → Nat → List String → Nat →
    Except ScanErr (FolderNode × List String × Nat)
  | 0, _, _, _, _ => .error .fuelOut
  | fuel + 1, currentPath, depth, visited, counter =>
    let name := if basename currentPath = "" then currentPath
      else basename currentPath
    let currentReal := canon fs currentPath
    if currentReal ∈ visited then
      .ok (.mk (makeId currentPath) currentPath name depth [] 0 0 tbZero,
        visited, counter)
    else
      let visited1 := currentReal :: visited
      match lookupDir fs.readdir currentPath with
      | none => .error .readdirFailed
      | some entries => do
        let (acc, v2, c2) ←
          walkEntries fs maxDepth followSymlinks includeHidden fuel entries
            currentPath depth visited1 counter
        .ok (.mk (makeId currentPath) currentPath name depth acc.children
          acc.directSize acc.directFileCount acc.tb, v2, c2)
termination_by structural fuel _ _ _ _ => fuel

/-- One iteration of the `walk` entry loop: the contribution of entry
`e` of `currentPath`.  A subdirectory within the depth ceiling becomes
an owned child via `walk`; past the ceiling its contents are folded
into the direct statistics via `sumAllBelow`.  A file adds to the
direct statistics; the threshold check of lines 197-199 of the source
throws inside the same `try` whose `catch` ignores unreadable files, so
the thrown error is swallowed and the check has no observable effect,
which is why no failure appears in the file branch of the embedding. -/
def walkEntryOne (fs : FS) (maxDepth : Int)
    (followSymlinks includeHidden : Bool) :
    Nat → Dirent → String → Nat → List String → Nat →
    Except ScanErr (WalkAcc × List String × Nat)
  | 0, _, _, _, _, _ => .error .fuelOut
  | fuel + 1, e, currentPath, depth, visited, counter =>
    if !includeHidden && isHiddenName e.name then
      .ok (⟨[], 0, 0, tbZero⟩, visited, counter)
    else
      let full := joinPath currentPath e.name
      if e.isSymbolicLink then
        if !followSymlinks then .ok (⟨[], 0, 0, tbZero⟩, visited, counter)
        else
          let real := canon fs full
          match fs.lstat real with
          | none => .ok (⟨[], 0, 0, tbZero⟩, visited, counter)
          | some st =>
            if st.isDirectory then
              if (depth + 1 : Int) ≤ maxDepth then do
                let (child, v1, c1) ←
                  walk fs maxDepth followSymlinks includeHidden fuel real
                    (depth + 1) visited counter
                .ok (⟨[child], 0, 0, tbZero⟩, v1, c1)
              else do
                let (sub, v1, c1) ←
                  sumAllBelow fs followSymlinks includeHidden fuel real
                    visited counter
                .ok (⟨[], sub.size, sub.count, sub.tb⟩, v1, c1)
            else if st.isFile then
              .ok (⟨[], st.size, 1,
                    addFileToBreakdown tbZero (getFileTypeGroup full)
                      st.size⟩, visited, counter + 1)
            else .ok (⟨[], 0, 0, tbZero⟩, visited, counter)
      else if e.isDirectory then
        if (depth + 1 : Int) ≤ maxDepth then do
          let (child, v1, c1) ←
            walk fs maxDepth followSymlinks includeHidden fuel full
              (depth + 1) visited counter
          .ok (⟨[child], 0, 0, tbZero⟩, v1, c1)
        else do
          let (sub, v1, c1) ←
            sumAllBelow fs followSymlinks includeHidden fuel full visited
              counter
          .ok (⟨[], sub.size, sub.count, sub.tb⟩, v1, c1)
      else if e.isFile then
        match fs.stat full with
        | none => .ok (⟨[], 0, 0, tbZero⟩, visited, counter)
        | some st =>
          .ok (⟨[], st.size, 1,
                addFileToBreakdown tbZero (getFileTypeGroup full)
                  st.size⟩, visited, counter + 1)
      else .ok (⟨[], 0, 0, tbZero⟩, visited, counter)
termination_by structural fuel _ _ _ _ _ => fuel

/-- The entry loop of `walk`, returning the contribution of the
remaining entries: children to attach (in order) plus additions to the
direct statistics. -/
def walkEntries (fs : FS) (maxDepth : Int)
    (followSymlinks includeHidden : Bool) :
    Nat → List Dirent → String → Nat → List String → Nat →
    Except ScanErr (WalkAcc × List String × Nat)
  | _, [], _, _, visited, counter => .ok (⟨[], 0, 0, tbZero⟩, visited, counter)
  | 0, _ :: _, _, _, _, _ => .error .fuelOut
  | fuel + 1, e :: rest, currentPath, depth, visited, counter => do
    let (one, v1, c1) ←
      walkEntryOne fs maxDepth followSymlinks includeHidden fuel e
        currentPath depth visited counter
    let (acc, v2, c2) ←
      walkEntries fs maxDepth followSymlinks includeHidden fuel rest
        currentPath depth v1 c1
    .ok (⟨one.children ++ acc.children, one.directSize + acc.directSize,
          one.directFileCount + acc.directFileCount,
          mergeBreakdown one.tb acc.tb⟩, v2, c2)
termination_by structural fuel _ _ _ _ _ => fuel

end

/-! ## Aggregation pass (`aggregate` in `scanDirectory.ts`) -/

/-- The record returned by `aggregate(node)`: recursively aggregated
totals (direct plus all children's aggregates). -/
structure AggRes where
  totalSize : Nat
  fileCount : Nat
  tb : TB
deriving DecidableEq, Repr

mutual

/-- Aggregated totals of one node: the `totalSize`/`fileCount`/`tb`
locals of `aggregate` after its loop over the children. -/
def aggRes : FolderNode → AggRes
  | .mk _ _ _ _ children ds dc tb => aggResList children ⟨ds, dc, tb⟩

/-- The loop of `aggregate`: fold the children's aggregates into the
accumulator, in order. -/
def aggResList : List FolderNode → AggRes → AggRes
  | [], acc => acc
  | c :: cs, acc =>
    let a := aggRes c
    aggResList cs
      ⟨acc.totalSize + a.totalSize, acc.fileCount + a.fileCount,
        mergeBreakdown acc.tb a.tb⟩

end

/-- The `FolderStats` record `aggregate` pushes for one node. -/
def statsOf (n : FolderNode) : FolderStats :=
  { id := n.id
    path := n.path
    name := n.name
    depth := n.depth
    totalSize := (aggRes n).totalSize
    fileCount := (aggRes n).fileCount
    subfolderCount := n.children.length
    typeBreakdown := (aggRes n).tb
    childrenIds := n.children.map fun c => c.id }

mutual

/-- The flat `folders` collection produced by `aggregate`: each child
subtree's records first (recursive calls push before the parent), the
parent's record last. -/
def foldersOf : FolderNode → List FolderStats
  | .mk i p nm d children ds dc tb =>
    foldersOfList children ++ [statsOf (.mk i p nm d children ds dc tb)]

def foldersOfList : List FolderNode → List FolderStats
  | [] => []
  | c :: cs => foldersOf c ++ foldersOfList cs

end

mutual

/-- All proper descendants of a node, in depth-first order. -/
def descendants : FolderNode → List FolderNode
  | .mk _ _ _ _ children _ _ _ => descendantsList children

def descendantsList : List FolderNode → List FolderNode
  | [] => []
  | c :: cs => (c :: descendants c) ++ descendantsList cs

end

/-! ## `scanDirectory` -/

/-- Fuel allotted by the embedding: two units per `readdir`-listed
entry plus one per table row, plus slack.  `scanDirectory_no_fuelOut`
proves this allotment is never exhausted. -/
def scanFuel (fs : FS) : Nat :=
  ((fs.readdir.map fun pr => 2 * pr.2.length + 1).sum) + 1

/-- `scanDirectory(options)`.  `path.resolve` is modelled as the
identity (the root is taken as already absolute); the `generatedAt`
wall-clock timestamp is abstracted to `""`.  Note that the source reads
only `maxDepth`, `followSymlinks` and `includeHidden` from the options:
in particular `includeFiles` is never consulted and the result is built
without a `files` field. -/
def scanDirectory (fs : FS) (options : ScanOptions) :
    Except ScanErr ScanResult :=
  let rootPath := options.rootPath
  let maxDepth := options.maxDepth.getD DEFAULT_MAX_DEPTH
  let followSymlinks := options.followSymlinks.getD false
  let includeHidden := options.includeHidden.getD false
  match fs.lstat rootPath with
  | none => .error .rootNotDirectory
  | some st =>
    if !st.isDirectory then .error .rootNotDirectory
    else do
      let (rootNode, _, _) ←
        walk fs maxDepth followSymlinks includeHidden (scanFuel fs)
          rootPath 0 [] 0
      .ok { rootPath := rootPath
            generatedAt := ""
            folders := foldersOf rootNode
            totalSize := (aggRes rootNode).totalSize
            totalFileCount := (aggRes rootNode).fileCount
            files := none }

/-! ## The IPC layer (`main.ts`) -/

/-- `IpcResult` from `shared/types.ts`: an error carries only a
human-readable message string. -/
inductive IpcResult (T : Type) where
  | ok (result : T)
  | err (error : String)
deriving DecidableEq, Repr

/-- Message of the thrown error as the handler would read it
(`err?.message`).  The messages of Node system errors are abstracted. -/
def scanErrMessage (rootPath : String) : ScanErr → String
  | .rootNotDirectory => "Root path is not a directory: " ++ rootPath
  | .readdirFailed => "EACCES: permission denied, scandir"
  | .fuelOut => "unreachable"

/-- The `ipcMain.handle(..)` body for `scan-directory` in `main.ts`,
returning the `IpcResult` reply together with the list of terminal
progress phases the handler emits.  `cancelled` is the state of the
cancellation token for this scan id (flipped by the `cancel-scan`
channel).  The handler passes an `isCancelled` callback as a second
argument, but `scanDirectory` (line 59 of the source) accepts only the
options parameter, so the callback is dropped; the token is consulted
again only in the catch branch, to choose whether a `cancelled`-phase
progress event is emitted. -/
def handleScanDirectory (fs : FS) (options : ScanOptions)
    (cancelled : Bool) : IpcResult ScanResult × List String :=
  match scanDirectory fs options with
  | .ok r => (.ok r, ["done"])
  | .error e =>
    (.err (scanErrMessage options.rootPath e),
      if cancelled then ["cancelled"] else [])

instance {e a : Type} [DecidableEq e] [DecidableEq a] :
    DecidableEq (Except e a) := fun x y =>
  match x, y with
  | .ok u, .ok v =>
    if h : u = v then .isTrue (by rw [h])
    else .isFalse fun hh => h (Except.ok.inj hh)
  | .error u, .error v =>
    if h : u = v then .isTrue (by rw [h])
    else .isFalse fun hh => h (Except.error.inj hh)
  | .ok _, .error _ => .isFalse fun hh => Except.noConfusion hh
  | .error _, .ok _ => .isFalse fun hh => Except.noConfusion hh

/-! ## Concrete filesystems used by witnesses and counterexamples -/

/-- A root `/r` holding a single visible 5-byte extensionless file `f`. -/
def tinyFS : FS :=
  { realpath := fun _ => none
    readdir := [("/r", [⟨"f", false, false, true⟩])]
    lstat := fun p => if p = "/r" then some ⟨true, false, 0⟩ else none
    stat := fun p => if p = "/r/f" then some ⟨false, true, 5⟩ else none }

/-- A root `/r` with an unreadable subdirectory `a`: `a` is listed as a
directory entry but `readdir` on `/r/a` rejects (permission error). -/
def unreadableSubdirFS : FS :=
  { realpath := fun _ => none
    readdir := [("/r", [⟨"a", false, true, false⟩])]
    lstat := fun p => if p = "/r" then some ⟨true, false, 0⟩ else none
    stat := fun _ => none }

/-- A chain `/r/a/b/c` of nested directories, with a 5-byte file `f` at
the bottom. -/
def chainFS : FS :=
  { realpath := fun _ => none
    readdir :=
      [("/r", [⟨"a", false, true, false⟩]),
       ("/r/a", [⟨"b", false, true, false⟩]),
       ("/r/a/b", [⟨"c", false, true, false⟩]),
       ("/r/a/b/c", [⟨"f", false, false, true⟩])]
    lstat := fun p => if p = "/r" then some ⟨true, false, 0⟩ else none
    stat := fun p => if p = "/r/a/b/c/f" then some ⟨false, true, 5⟩ else none }

/-- A directory tree with a symlink cycle: `/r` holds a 100-byte file
`f` and a subdirectory `a`, and `/r/a/loop` is a symlink whose canonical
real path is `/r` itself. -/
def cycFS : FS :=
  { realpath := fun p => if p = "/r/a/loop" then some "/r" else none
    readdir :=
      [("/r", [⟨"f", false, false, true⟩, ⟨"a", false, true, false⟩]),
       ("/r/a", [⟨"loop", true, false, false⟩])]
    lstat := fun p => if p = "/r" then some ⟨true, false, 0⟩ else none
    stat := fun p => if p = "/r/f" then some ⟨false, true, 100⟩ else none }

/-- A root `/r` with one subdirectory `a` holding a 7-byte file `g`. -/
def oneSubdirFS : FS :=
  { realpath := fun _ => none
    readdir :=
      [("/r", [⟨"a", false, true, false⟩]),
       ("/r/a", [⟨"g", false, false, true⟩])]
    lstat := fun p => if p = "/r" then some ⟨true, false, 0⟩ else none
    stat := fun p => if p = "/r/a/g" then some ⟨false, true, 7⟩ else none }

/-! ## Breakdown algebra -/

/-- Size recorded for one category. -/
def sizeAt (tb : TB) (g : FileTypeGroup) : Nat := (tbGet tb g).size

/-- Count recorded for one category. -/
def countAt (tb : TB) (g : FileTypeGroup) : Nat := (tbGet tb g).count

/-- The closed list of categories. -/
def allGroups : List FileTypeGroup :=
  [.video, .image, .audio, .document, .code, .archive, .other]

/-- Total size recorded across all categories of a breakdown. -/
def tbTotalSize (tb : TB) : Nat := (allGroups.map (sizeAt tb)).sum

/-- Total count recorded across all categories of a breakdown. -/
def tbTotalCount (tb : TB) : Nat := (allGroups.map (countAt tb)).sum

theorem sizeAt_merge (a b : TB) (g : FileTypeGroup) :
    sizeAt (mergeBreakdown a b) g = sizeAt a g + sizeAt b g := by
  cases g <;> rfl

theorem countAt_merge (a b : TB) (g : FileTypeGroup) :
    countAt (mergeBreakdown a b) g = countAt a g + countAt b g := by
  cases g <;> rfl

theorem sizeAt_addFile (tb : TB) (g g' : FileTypeGroup) (s : Nat) :
    sizeAt (addFileToBreakdown tb g s) g' =
      sizeAt tb g' + (if g' = g then s else 0) := by
  cases g <;> cases g' <;>
    simp [addFileToBreakdown, sizeAt, tbGet, entryAdd]

theorem countAt_addFile (tb : TB) (g g' : FileTypeGroup) (s : Nat) :
    countAt (addFileToBreakdown tb g s) g' =
      countAt tb g' + (if g' = g then 1 else 0) := by
  cases g <;> cases g' <;>
    simp [addFileToBreakdown, countAt, tbGet, entryAdd]

theorem tbTotalSize_merge (a b : TB) :
    tbTotalSize (mergeBreakdown a b) = tbTotalSize a + tbTotalSize b := by
  simp [tbTotalSize, allGroups, sizeAt_merge]
  omega

theorem tbTotalCount_merge (a b : TB) :
    tbTotalCount (mergeBreakdown a b) = tbTotalCount a + tbTotalCount b := by
  simp [tbTotalCount, allGroups, countAt_merge]
  omega

theorem tbTotalSize_addFile (tb : TB) (g : FileTypeGroup) (s : Nat) :
    tbTotalSize (addFileToBreakdown tb g s) = tbTotalSize tb + s := by
  cases g <;> simp [tbTotalSize, allGroups, sizeAt_addFile] <;> omega

theorem tbTotalCount_addFile (tb : TB) (g : FileTypeGroup) (s : Nat) :
    tbTotalCount (addFileToBreakdown tb g s) = tbTotalCount tb + 1 := by
  cases g <;> simp [tbTotalCount, allGroups, countAt_addFile] <;> omega

theorem tbTotalSize_zero : tbTotalSize tbZero = 0 := rfl

theorem tbTotalCount_zero : tbTotalCount tbZero = 0 := rfl

/-! ## Aggregation lemmas -/

theorem aggResList_eq (l : List FolderNode) (acc : AggRes) :
    aggResList l acc =
      ⟨acc.totalSize + (l.map fun c => (aggRes c).totalSize).sum,
       acc.fileCount + (l.map fun c => (aggRes c).fileCount).sum,
       l.foldl (fun tb c => mergeBreakdown tb (aggRes c).tb) acc.tb⟩ := by
  induction l generalizing acc with
  | nil => simp [aggResList]
  | cons c cs ih =>
    simp only [aggResList, ih, List.map_cons, List.sum_cons, List.foldl_cons]
    simp only [AggRes.mk.injEq]
    exact ⟨by omega, by omega, trivial⟩

theorem aggRes_node (i p nm : String) (d ds dc : Nat)
    (children : List FolderNode) (tb : TB) :
    aggRes (.mk i p nm d children ds dc tb) =
      ⟨ds + (children.map fun c => (aggRes c).totalSize).sum,
       dc + (children.map fun c => (aggRes c).fileCount).sum,
       children.foldl (fun t c => mergeBreakdown t (aggRes c).tb) tb⟩ := by
  rw [aggRes, aggResList_eq]

theorem aggRes_totalSize (n : FolderNode) :
    (aggRes n).totalSize =
      n.directSize + (n.children.map fun c => (aggRes c).totalSize).sum := by
  cases n
  rw [aggRes_node]
  rfl

theorem aggRes_fileCount (n : FolderNode) :
    (aggRes n).fileCount =
      n.directFileCount +
        (n.children.map fun c => (aggRes c).fileCount).sum := by
  cases n
  rw [aggRes_node]
  rfl

theorem sizeAt_foldl_merge (g : FileTypeGroup) (tbs : List TB) (tb0 : TB) :
    sizeAt (tbs.foldl mergeBreakdown tb0) g =
      sizeAt tb0 g + (tbs.map fun t => sizeAt t g).sum := by
  induction tbs generalizing tb0 with
  | nil => simp
  | cons t ts ih =>
    simp only [List.foldl_cons, ih, sizeAt_merge, List.map_cons,
      List.sum_cons]
    omega

theorem countAt_foldl_merge (g : FileTypeGroup) (tbs : List TB) (tb0 : TB) :
    countAt (tbs.foldl mergeBreakdown tb0) g =
      countAt tb0 g + (tbs.map fun t => countAt t g).sum := by
  induction tbs generalizing tb0 with
  | nil => simp
  | cons t ts ih =>
    simp only [List.foldl_cons, ih, countAt_merge, List.map_cons,
      List.sum_cons]
    omega

mutual

theorem aggRes_sizeAt (n : FolderNode) (g : FileTypeGroup) :
    sizeAt (aggRes n).tb g =
      sizeAt n.typeBreakdown g +
        ((descendants n).map fun d => sizeAt d.typeBreakdown g).sum := by
  cases n with
  | mk i p nm d children ds dc tb =>
    rw [aggRes_node]
    show sizeAt (children.foldl (fun t c => mergeBreakdown t (aggRes c).tb) tb) g = _
    rw [show (children.foldl (fun t c => mergeBreakdown t (aggRes c).tb) tb) =
        ((children.map fun c => (aggRes c).tb).foldl mergeBreakdown tb) by
      rw [List.foldl_map]]
    rw [sizeAt_foldl_merge]
    have hl := aggResList_sizeAt children g
    simp only [List.map_map]
    show sizeAt tb g + ((children.map fun c => sizeAt (aggRes c).tb g).sum) = _
    rw [hl]
    rfl

theorem aggResList_sizeAt (l : List FolderNode) (g : FileTypeGroup) :
    (l.map fun c => sizeAt (aggRes c).tb g).sum =
      ((descendantsList l).map fun d => sizeAt d.typeBreakdown g).sum := by
  cases l with
  | nil => rfl
  | cons c cs =>
    have hc := aggRes_sizeAt c g
    have hcs := aggResList_sizeAt cs g
    simp only [List.map_cons, List.sum_cons, descendantsList, List.map_append,
      List.sum_append, hc, hcs]

end

mutual

theorem aggRes_countAt (n : FolderNode) (g : FileTypeGroup) :
    countAt (aggRes n).tb g =
      countAt n.typeBreakdown g +
        ((descendants n).map fun d => countAt d.typeBreakdown g).sum := by
  cases n with
  | mk i p nm d children ds dc tb =>
    rw [aggRes_node]
    show countAt (children.foldl (fun t c => mergeBreakdown t (aggRes c).tb) tb) g = _
    rw [show (children.foldl (fun t c => mergeBreakdown t (aggRes c).tb) tb) =
        ((children.map fun c => (aggRes c).tb).foldl mergeBreakdown tb) by
      rw [List.foldl_map]]
    rw [countAt_foldl_merge]
    have hl := aggResList_countAt children g
    simp only [List.map_map]
    show countAt tb g + ((children.map fun c => countAt (aggRes c).tb g).sum) = _
    rw [hl]
    rfl

theorem aggResList_countAt (l : List FolderNode) (g : FileTypeGroup) :
    (l.map fun c => countAt (aggRes c).tb g).sum =
      ((descendantsList l).map fun d => countAt d.typeBreakdown g).sum := by
  cases l with
  | nil => rfl
  | cons c cs =>
    have hc := aggRes_countAt c g
    have hcs := aggResList_countAt cs g
    simp only [List.map_cons, List.sum_cons, descendantsList, List.map_append,
      List.sum_append, hc, hcs]

end

/-! ## Structure of the flattened folder collection -/

theorem descendants_node (i p nm : String) (d ds dc : Nat)
    (children : List FolderNode) (tb : TB) :
    descendants (.mk i p nm d children ds dc tb) = descendantsList children := by
  rw [descendants]

theorem foldersOf_node (i p nm : String) (d ds dc : Nat)
    (children : List FolderNode) (tb : TB) :
    foldersOf (.mk i p nm d children ds dc tb) =
      foldersOfList children ++ [statsOf (.mk i p nm d children ds dc tb)] := by
  rw [foldersOf]

mutual

theorem mem_foldersOf (n : FolderNode) (f : FolderStats)
    (hf : f ∈ foldersOf n) :
    ∃ m, (m = n ∨ m ∈ descendants n) ∧ f = statsOf m := by
  cases n with
  | mk i p nm d children ds dc tb =>
    rw [foldersOf_node] at hf
    rcases List.mem_append.1 hf with hl | hr
    · obtain ⟨m, hm, hfm⟩ := mem_foldersOfList children f hl
      exact ⟨m, .inr (by rw [descendants_node]; exact hm), hfm⟩
    · exact ⟨_, .inl rfl, (List.mem_singleton.1 hr)⟩

theorem mem_foldersOfList (l : List FolderNode) (f : FolderStats)
    (hf : f ∈ foldersOfList l) :
    ∃ m, m ∈ descendantsList l ∧ f = statsOf m := by
  cases l with
  | nil => cases hf
  | cons c cs =>
    rw [foldersOfList] at hf
    rcases List.mem_append.1 hf with hl | hr
    · obtain ⟨m, hm, hfm⟩ := mem_foldersOf c f hl
      refine ⟨m, ?_, hfm⟩
      rw [descendantsList]
      rcases hm with rfl | hm
      · exact List.mem_append.2 (.inl (List.mem_cons_self _ _))
      · exact List.mem_append.2 (.inl (List.mem_cons_of_mem _ hm))
    · obtain ⟨m, hm, hfm⟩ := mem_foldersOfList cs f hr
      refine ⟨m, ?_, hfm⟩
      rw [descendantsList]
      exact List.mem_append.2 (.inr hm)

end

theorem mem_descendantsList_self {c : FolderNode} {l : List FolderNode}
    (hc : c ∈ l) : c ∈ descendantsList l := by
  induction l with
  | nil => cases hc
  | cons d ds ih =>
    rw [descendantsList]
    rcases List.mem_cons.1 hc with rfl | hc
    · exact List.mem_append.2 (.inl (List.mem_cons_self _ _))
    · exact List.mem_append.2 (.inr (ih hc))

mutual

theorem statsOf_mem_foldersOf (n : FolderNode) (m : FolderNode)
    (hm : m = n ∨ m ∈ descendants n) : statsOf m ∈ foldersOf n := by
  cases n with
  | mk i p nm d children ds dc tb =>
    rw [foldersOf_node]
    rcases hm with rfl | hm
    · exact List.mem_append.2 (.inr (List.mem_singleton.2 rfl))
    · rw [descendants_node] at hm
      exact List.mem_append.2
        (.inl (statsOf_mem_foldersOfList children m hm))

theorem statsOf_mem_foldersOfList (l : List FolderNode) (m : FolderNode)
    (hm : m ∈ descendantsList l) : statsOf m ∈ foldersOfList l := by
  cases l with
  | nil => cases hm
  | cons c cs =>
    rw [descendantsList] at hm
    rw [foldersOfList]
    rcases List.mem_append.1 hm with hl | hr
    · rcases List.mem_cons.1 hl with h1 | hl
      · subst h1
        exact List.mem_append.2
          (.inl (statsOf_mem_foldersOf _ _ (.inl rfl)))
      · exact List.mem_append.2
          (.inl (statsOf_mem_foldersOf _ m (.inr hl)))
    · exact List.mem_append.2 (.inr (statsOf_mem_foldersOfList cs m hr))

end

mutual

theorem descendants_child_closed (n : FolderNode) (m : FolderNode)
    (hm : m ∈ descendants n) (k : FolderNode) (hk : k ∈ m.children) :
    k ∈ descendants n := by
  cases n with
  | mk i p nm d children ds dc tb =>
    rw [descendants_node] at hm ⊢
    exact descendantsList_child_closed children m hm k hk

theorem descendantsList_child_closed (l : List FolderNode) (m : FolderNode)
    (hm : m ∈ descendantsList l) (k : FolderNode) (hk : k ∈ m.children) :
    k ∈ descendantsList l := by
  cases l with
  | nil => cases hm
  | cons c cs =>
    rw [descendantsList] at hm ⊢
    rcases List.mem_append.1 hm with hl | hr
    · rcases List.mem_cons.1 hl with h1 | hl
      · subst h1
        refine List.mem_append.2 (.inl (List.mem_cons_of_mem _ ?_))
        cases m with
        | mk i2 p2 nm2 d2 children2 ds2 dc2 tb2 =>
          rw [descendants_node]
          exact mem_descendantsList_self hk
      · exact List.mem_append.2
          (.inl (List.mem_cons_of_mem _
            (descendants_child_closed c m hl k hk)))
    · exact List.mem_append.2 (.inr (descendantsList_child_closed cs m hr k hk))

end

/-! ## Inversion of a successful scan -/

theorem scanDirectory_ok_inv (fs : FS) (opts : ScanOptions) (r : ScanResult)
    (h : scanDirectory fs opts = .ok r) :
    ∃ node v c,
      walk fs (opts.maxDepth.getD DEFAULT_MAX_DEPTH)
        (opts.followSymlinks.getD false) (opts.includeHidden.getD false)
        (scanFuel fs) opts.rootPath 0 [] 0 = .ok (node, v, c) ∧
      r = { rootPath := opts.rootPath
            generatedAt := ""
            folders := foldersOf node
            totalSize := (aggRes node).totalSize
            totalFileCount := (aggRes node).fileCount
            files := none } := by
  cases hst : fs.lstat opts.rootPath with
  | none => simp [scanDirectory, hst] at h
  | some st =>
    by_cases hd : st.isDirectory
    · simp only [scanDirectory, hst, hd, Bool.not_true, Bool.false_eq_true,
        if_false] at h
      cases hw : walk fs (opts.maxDepth.getD DEFAULT_MAX_DEPTH)
          (opts.followSymlinks.getD false) (opts.includeHidden.getD false)
          (scanFuel fs) opts.rootPath 0 [] 0 with
      | error e => rw [hw] at h; cases h
      | ok t =>
        obtain ⟨node, v, c⟩ := t
        rw [hw] at h
        cases h
        exact ⟨node, v, c, rfl, rfl⟩
    · simp only [Bool.not_eq_true] at hd
      simp [scanDirectory, hst, hd] at h

/-- C1: for every FolderStats node in the folders collection of a
ScanResult returned by scanDirectory, totalSize equals the node's
direct size plus the sum of its children's totalSize, fileCount equals
the node's direct file count plus the sum of its children's fileCount,
and typeBreakdown is the entrywise sum (per category, both size and
count) of the node's direct breakdown and all of its descendants'
breakdowns. -/
theorem c1_aggregation_invariant (fs : FS) (opts : ScanOptions)
    (r : ScanResult) (h : scanDirectory fs opts = .ok r) :
    ∀ f ∈ r.folders, ∃ n : FolderNode, f = statsOf n ∧
      f.totalSize =
        n.directSize + ((n.children.map fun c => (statsOf c).totalSize)).sum ∧
      f.fileCount =
        n.directFileCount +
          ((n.children.map fun c => (statsOf c).fileCount)).sum ∧
      ∀ g : FileTypeGroup,
        sizeAt f.typeBreakdown g =
          sizeAt n.typeBreakdown g +
            (((descendants n).map fun d => sizeAt d.typeBreakdown g)).sum ∧
        countAt f.typeBreakdown g =
          countAt n.typeBreakdown g +
            (((descendants n).map fun d => countAt d.typeBreakdown g)).sum := by
  intro f hf
  obtain ⟨node, v, c, hw, hr⟩ := scanDirectory_ok_inv fs opts r h
  subst hr
  obtain ⟨m, hm, hfm⟩ := mem_foldersOf node f hf
  subst hfm
  refine ⟨m, rfl, ?_, ?_, ?_⟩
  · simp only [statsOf]
    exact aggRes_totalSize m
  · simp only [statsOf]
    exact aggRes_fileCount m
  · intro g
    constructor
    · simp only [statsOf]
      exact aggRes_sizeAt m g
    · simp only [statsOf]
      exact aggRes_countAt m g

/-- The single folder record of a scan of `tinyFS`. -/
def tinyFolder : FolderStats :=
  { id := "/r", path := "/r", name := "r", depth := 0, totalSize := 5,
    fileCount := 1, subfolderCount := 0,
    typeBreakdown := { other := ⟨5, 1⟩ }, childrenIds := [] }

/-- The result of a scan of `tinyFS`. -/
def tinyResult : ScanResult :=
  { rootPath := "/r", generatedAt := "", folders := [tinyFolder],
    totalSize := 5, totalFileCount := 1, files := none }

theorem c1_aggregation_invariant_witness :
    ∃ n : FolderNode, tinyFolder = statsOf n ∧
      tinyFolder.totalSize =
        n.directSize + ((n.children.map fun c => (statsOf c).totalSize)).sum ∧
      tinyFolder.fileCount =
        n.directFileCount +
          ((n.children.map fun c => (statsOf c).fileCount)).sum ∧
      ∀ g : FileTypeGroup,
        sizeAt tinyFolder.typeBreakdown g =
          sizeAt n.typeBreakdown g +
            (((descendants n).map fun d => sizeAt d.typeBreakdown g)).sum ∧
        countAt tinyFolder.typeBreakdown g =
          countAt n.typeBreakdown g +
            (((descendants n).map fun d => countAt d.typeBreakdown g)).sum :=
  c1_aggregation_invariant tinyFS { rootPath := "/r" } tinyResult (by decide)
    tinyFolder (by decide)

/-- C9: in every ScanResult returned by scanDirectory, each identifier
appearing in any FolderStats node's childrenIds also appears as the id
of a FolderStats node present in the same folders collection (no
dangling ids), and the result's top-level totalSize and totalFileCount
equal the root folder node's aggregated totalSize and fileCount. -/
theorem c9_result_consistency (fs : FS) (opts : ScanOptions)
    (r : ScanResult) (h : scanDirectory fs opts = .ok r) :
    (∀ f ∈ r.folders, ∀ cid ∈ f.childrenIds,
      ∃ g ∈ r.folders, g.id = cid) ∧
    ∃ froot ∈ r.folders, r.folders.getLast? = some froot ∧
      froot.totalSize = r.totalSize ∧ froot.fileCount = r.totalFileCount := by
  obtain ⟨node, v, c, hw, hr⟩ := scanDirectory_ok_inv fs opts r h
  subst hr
  constructor
  · intro f hf cid hcid
    obtain ⟨m, hm, hfm⟩ := mem_foldersOf node f hf
    subst hfm
    simp only [statsOf] at hcid
    obtain ⟨k, hk, hkid⟩ := List.mem_map.1 hcid
    refine ⟨statsOf k, ?_, ?_⟩
    · apply statsOf_mem_foldersOf
      right
      rcases hm with rfl | hm
      · cases m with
        | mk i p nm d children ds dc tb =>
          rw [descendants_node]
          exact mem_descendantsList_self hk
      · exact descendants_child_closed node m hm k hk
    · rw [← hkid]
      rfl
  · refine ⟨statsOf node, statsOf_mem_foldersOf node node (.inl rfl), ?_, rfl, rfl⟩
    cases node with
    | mk i p nm d children ds dc tb =>
      show (foldersOf (FolderNode.mk i p nm d children ds dc tb)).getLast? = _
      rw [foldersOf_node, List.getLast?_concat]

/-- The folder record for `/r/a` in a scan of `oneSubdirFS`. -/
def aFolder : FolderStats :=
  { id := "/r/a", path := "/r/a", name := "a", depth := 1, totalSize := 7,
    fileCount := 1, subfolderCount := 0,
    typeBreakdown := { other := ⟨7, 1⟩ }, childrenIds := [] }

/-- The root folder record in a scan of `oneSubdirFS`. -/
def rootFolder : FolderStats :=
  { id := "/r", path := "/r", name := "r", depth := 0, totalSize := 7,
    fileCount := 1, subfolderCount := 1,
    typeBreakdown := { other := ⟨7, 1⟩ }, childrenIds := ["/r/a"] }

/-- The result of a scan of `oneSubdirFS` with the default options. -/
def oneSubdirResult : ScanResult :=
  { rootPath := "/r", generatedAt := "", folders := [aFolder, rootFolder],
    totalSize := 7, totalFileCount := 1, files := none }

theorem c9_result_consistency_witness :
    (∃ g ∈ oneSubdirResult.folders, g.id = "/r/a") ∧
    ∃ froot ∈ oneSubdirResult.folders,
      oneSubdirResult.folders.getLast? = some froot ∧
      froot.totalSize = oneSubdirResult.totalSize ∧
      froot.fileCount = oneSubdirResult.totalFileCount :=
  ⟨(c9_result_consistency oneSubdirFS { rootPath := "/r" } oneSubdirResult
      (by decide)).1 rootFolder (by decide) "/r/a" (by decide),
   (c9_result_consistency oneSubdirFS { rootPath := "/r" } oneSubdirResult
      (by decide)).2⟩

/-! ## Per-category totals account for every counted byte and file -/

theorem tbTotalSize_foldl_merge (tbs : List TB) (tb0 : TB) :
    tbTotalSize (tbs.foldl mergeBreakdown tb0) =
      tbTotalSize tb0 + (tbs.map tbTotalSize).sum := by
  induction tbs generalizing tb0 with
  | nil => simp
  | cons t ts ih =>
    simp only [List.foldl_cons, ih, tbTotalSize_merge, List.map_cons,
      List.sum_cons]
    omega

theorem tbTotalCount_foldl_merge (tbs : List TB) (tb0 : TB) :
    tbTotalCount (tbs.foldl mergeBreakdown tb0) =
      tbTotalCount tb0 + (tbs.map tbTotalCount).sum := by
  induction tbs generalizing tb0 with
  | nil => simp
  | cons t ts ih =>
    simp only [List.foldl_cons, ih, tbTotalCount_merge, List.map_cons,
      List.sum_cons]
    omega

/-- A node's direct breakdown accounts exactly for its direct size and
direct file count. -/
def directOk (n : FolderNode) : Prop :=
  tbTotalSize n.typeBreakdown = n.directSize ∧
  tbTotalCount n.typeBreakdown = n.directFileCount

def sumOutOk (out : SumAcc × List String × Nat) : Prop :=
  tbTotalSize out.1.tb = out.1.size ∧ tbTotalCount out.1.tb = out.1.count

def accOutOk (out : WalkAcc × List String × Nat) : Prop :=
  tbTotalSize out.1.tb = out.1.directSize ∧
  tbTotalCount out.1.tb = out.1.directFileCount ∧
  ∀ m ∈ descendantsList out.1.children, directOk m

def nodeOutOk (out : FolderNode × List String × Nat) : Prop :=
  ∀ m, (m = out.1 ∨ m ∈ descendants out.1) → directOk m

theorem sumOk_zero (v : List String) (c : Nat) :
    sumOutOk (⟨0, 0, tbZero⟩, v, c) := ⟨rfl, rfl⟩

theorem sumOk_file (v : List String) (c s : Nat) (g : FileTypeGroup) :
    sumOutOk (⟨s, 1, addFileToBreakdown tbZero g s⟩, v, c) := by
  refine ⟨?_, ?_⟩
  · show tbTotalSize (addFileToBreakdown tbZero g s) = s
    rw [tbTotalSize_addFile, tbTotalSize_zero]
    exact Nat.zero_add s
  · show tbTotalCount (addFileToBreakdown tbZero g s) = 1
    rw [tbTotalCount_addFile, tbTotalCount_zero]

theorem accOk_zero (v : List String) (c : Nat) :
    accOutOk (⟨[], 0, 0, tbZero⟩, v, c) :=
  ⟨rfl, rfl, by intro m hm; cases hm⟩

theorem accOk_file (v : List String) (c s : Nat) (g : FileTypeGroup) :
    accOutOk (⟨[], s, 1, addFileToBreakdown tbZero g s⟩, v, c) := by
  refine ⟨?_, ?_, by intro m hm; cases hm⟩
  · show tbTotalSize (addFileToBreakdown tbZero g s) = s
    rw [tbTotalSize_addFile, tbTotalSize_zero]
    exact Nat.zero_add s
  · show tbTotalCount (addFileToBreakdown tbZero g s) = 1
    rw [tbTotalCount_addFile, tbTotalCount_zero]

theorem descendantsList_append (a b : List FolderNode) :
    descendantsList (a ++ b) = descendantsList a ++ descendantsList b := by
  induction a with
  | nil => rw [descendantsList]; simp
  | cons c cs ih =>
    rw [List.cons_append, descendantsList, ih, descendantsList,
      List.append_assoc]

/-- Inversion of a successful `Except` bind. -/
theorem exceptBind_ok_inv {e a b : Type} {x : Except e a}
    {f : a → Except e b} {out : b} (h : (x >>= f) = .ok out) :
    ∃ u, x = .ok u ∧ f u = .ok out := by
  cases x with
  | error err => simp [Bind.bind, Except.bind] at h
  | ok u =>
    refine ⟨u, rfl, ?_⟩
    simpa [Bind.bind, Except.bind] using h

/-- The direct statistics of every node produced by the walker account
for exactly the files recorded in its breakdown. -/
theorem walk_direct_invariant (fs : FS) (md : Int) (fl hid : Bool) :
    ∀ fuel : Nat,
      (∀ p v c out, sumAllBelow fs fl hid fuel p v c = .ok out →
        sumOutOk out) ∧
      (∀ e dp v c out, sumEntryOne fs fl hid fuel e dp v c = .ok out →
        sumOutOk out) ∧
      (∀ es dp v c out, sumEntries fs fl hid fuel es dp v c = .ok out →
        sumOutOk out) ∧
      (∀ p d v c out, walk fs md fl hid fuel p d v c = .ok out →
        nodeOutOk out) ∧
      (∀ e p d v c out, walkEntryOne fs md fl hid fuel e p d v c = .ok out →
        accOutOk out) ∧
      (∀ es p d v c out, walkEntries fs md fl hid fuel es p d v c = .ok out →
        accOutOk out) := by
  intro fuel
  induction fuel with
  | zero =>
    refine ⟨?_, ?_, ?_, ?_, ?_, ?_⟩
    · intro p v c out h; cases h
    · intro e dp v c out h; cases h
    · intro es dp v c out h
      cases es with
      | nil => cases h; exact sumOk_zero v c
      | cons e rest => cases h
    · intro p d v c out h; cases h
    · intro e p d v c out h; cases h
    · intro es p d v c out h
      cases es with
      | nil => cases h; exact accOk_zero v c
      | cons e rest => cases h
  | succ fuel ih =>
    obtain ⟨ihSum, ihSumOne, ihSumEntries, ihWalk, ihWalkOne, ihWalkEntries⟩ := ih
    refine ⟨?_, ?_, ?_, ?_, ?_, ?_⟩
    · -- sumAllBelow
      intro p v c out h
      simp only [sumAllBelow] at h
      split at h
      · cases h; exact sumOk_zero _ _
      · split at h
        · cases h; exact sumOk_zero _ _
        · exact ihSumEntries _ _ _ _ _ h
    · -- sumEntryOne
      intro e dp v c out h
      simp only [sumEntryOne] at h
      split at h
      · cases h; exact sumOk_zero _ _
      · split at h
        · split at h
          · cases h; exact sumOk_zero _ _
          · split at h
            · cases h; exact sumOk_zero _ _
            · split at h
              · exact ihSum _ _ _ _ h
              · split at h
                · cases h; exact sumOk_file _ _ _ _
                · cases h; exact sumOk_zero _ _
        · split at h
          · exact ihSum _ _ _ _ h
          · split at h
            · split at h
              · cases h; exact sumOk_zero _ _
              · cases h; exact sumOk_file _ _ _ _
            · cases h; exact sumOk_zero _ _
    · -- sumEntries
      intro es dp v c out h
      cases es with
      | nil => cases h; exact sumOk_zero _ _
      | cons e rest =>
        simp only [sumEntries] at h
        obtain ⟨⟨one, v1, c1⟩, h1, h⟩ := exceptBind_ok_inv h
        obtain ⟨⟨acc, v2, c2⟩, h2, h⟩ := exceptBind_ok_inv h
        cases h
        obtain ⟨hs1, hc1⟩ := ihSumOne _ _ _ _ _ h1
        obtain ⟨hs2, hc2⟩ := ihSumEntries _ _ _ _ _ h2
        refine ⟨?_, ?_⟩
        · show tbTotalSize (mergeBreakdown one.tb acc.tb) = one.size + acc.size
          rw [tbTotalSize_merge]
          simp only [sumOutOk] at hs1 hs2
          omega
        · show tbTotalCount (mergeBreakdown one.tb acc.tb) = one.count + acc.count
          rw [tbTotalCount_merge]
          simp only [sumOutOk] at hc1 hc2
          omega
    · -- walk
      intro p d v c out h
      simp only [walk] at h
      split at h
      · cases h
        intro m hm
        rcases hm with rfl | hm
        · exact ⟨rfl, rfl⟩
        · rw [descendants_node] at hm
          cases hm
      · split at h
        · cases h
        · obtain ⟨⟨acc, v2, c2⟩, hw, h⟩ := exceptBind_ok_inv h
          cases h
          obtain ⟨ha1, ha2, ha3⟩ := ihWalkEntries _ _ _ _ _ _ hw
          intro m hm
          rcases hm with rfl | hm
          · exact ⟨ha1, ha2⟩
          · rw [descendants_node] at hm
            exact ha3 m hm
    · -- walkEntryOne
      intro e p d v c out h
      simp only [walkEntryOne] at h
      split at h
      · cases h; exact accOk_zero _ _
      · split at h
        · split at h
          · cases h; exact accOk_zero _ _
          · split at h
            · cases h; exact accOk_zero _ _
            · split at h
              · split at h
                · obtain ⟨⟨child, v1, c1⟩, hw, h⟩ := exceptBind_ok_inv h
                  cases h
                  refine ⟨rfl, rfl, ?_⟩
                  intro m hm
                  simp only [descendantsList, List.append_nil] at hm
                  have hno := ihWalk _ _ _ _ _ hw
                  have hm' : m = child ∨ m ∈ descendants child :=
                    List.mem_cons.1 hm
                  exact hno m hm' 
                · obtain ⟨⟨sub, v1, c1⟩, hs, h⟩ := exceptBind_ok_inv h
                  cases h
                  obtain ⟨h1, h2⟩ := ihSum _ _ _ _ hs
                  exact ⟨h1, h2, by intro m hm; cases hm⟩
              · split at h
                · cases h; exact accOk_file _ _ _ _
                · cases h; exact accOk_zero _ _
        · split at h
          · split at h
            · obtain ⟨⟨child, v1, c1⟩, hw, h⟩ := exceptBind_ok_inv h
              cases h
              refine ⟨rfl, rfl, ?_⟩
              intro m hm
              simp only [descendantsList, List.append_nil] at hm
              have hno := ihWalk _ _ _ _ _ hw
              have hm' : m = child ∨ m ∈ descendants child :=
                List.mem_cons.1 hm
              exact hno m hm' 
            · obtain ⟨⟨sub, v1, c1⟩, hs, h⟩ := exceptBind_ok_inv h
              cases h
              obtain ⟨h1, h2⟩ := ihSum _ _ _ _ hs
              exact ⟨h1, h2, by intro m hm; cases hm⟩
          · split at h
            · split at h
              · cases h; exact accOk_zero _ _
              · cases h; exact accOk_file _ _ _ _
            · cases h; exact accOk_zero _ _
    · -- walkEntries
      intro es p d v c out h
      cases es with
      | nil => cases h; exact accOk_zero _ _
      | cons e rest =>
        simp only [walkEntries] at h
        obtain ⟨⟨one, v1, c1⟩, h1, h⟩ := exceptBind_ok_inv h
        obtain ⟨⟨acc, v2, c2⟩, h2, h⟩ := exceptBind_ok_inv h
        cases h
        obtain ⟨ha1, ha2, ha3⟩ := ihWalkOne _ _ _ _ _ _ h1
        obtain ⟨hb1, hb2, hb3⟩ := ihWalkEntries _ _ _ _ _ _ h2
        refine ⟨?_, ?_, ?_⟩
        · show tbTotalSize (mergeBreakdown one.tb acc.tb) =
            one.directSize + acc.directSize
          rw [tbTotalSize_merge]
          have t1 : tbTotalSize one.tb = one.directSize := ha1
          have t2 : tbTotalSize acc.tb = acc.directSize := hb1
          omega
        · show tbTotalCount (mergeBreakdown one.tb acc.tb) =
            one.directFileCount + acc.directFileCount
          rw [tbTotalCount_merge]
          have t1 : tbTotalCount one.tb = one.directFileCount := ha2
          have t2 : tbTotalCount acc.tb = acc.directFileCount := hb2
          omega
        · intro m hm
          have hm' : m ∈ descendantsList (one.children ++ acc.children) := hm
          rw [descendantsList_append] at hm'
          rcases List.mem_append.1 hm' with hmm | hmm
          · exact ha3 m hmm
          · exact hb3 m hmm

mutual

theorem aggRes_total_ok (n : FolderNode)
    (h : ∀ m, (m = n ∨ m ∈ descendants n) → directOk m) :
    tbTotalSize (aggRes n).tb = (aggRes n).totalSize ∧
    tbTotalCount (aggRes n).tb = (aggRes n).fileCount := by
  cases n with
  | mk i p nm d children ds dc tb =>
    have hlist := aggResList_total_ok children (by
      intro m hm
      exact h m (.inr (by rw [descendants_node]; exact hm)))
    have hdir := h (.mk i p nm d children ds dc tb) (.inl rfl)
    rw [aggRes_node]
    have hfold : (children.foldl (fun t c => mergeBreakdown t (aggRes c).tb) tb) =
        ((children.map fun c => (aggRes c).tb).foldl mergeBreakdown tb) := by
      rw [List.foldl_map]
    constructor
    · show tbTotalSize (children.foldl (fun t c => mergeBreakdown t (aggRes c).tb) tb) = _
      rw [hfold, tbTotalSize_foldl_merge, List.map_map]
      have hd1 : tbTotalSize tb = ds := hdir.1
      have hl1 := hlist.1
      show tbTotalSize tb + ((children.map fun c => tbTotalSize (aggRes c).tb).sum) = _
      rw [hd1, hl1]
    · show tbTotalCount (children.foldl (fun t c => mergeBreakdown t (aggRes c).tb) tb) = _
      rw [hfold, tbTotalCount_foldl_merge, List.map_map]
      have hd2 : tbTotalCount tb = dc := hdir.2
      have hl2 := hlist.2
      show tbTotalCount tb + ((children.map fun c => tbTotalCount (aggRes c).tb).sum) = _
      rw [hd2, hl2]

theorem aggResList_total_ok (l : List FolderNode)
    (h : ∀ m ∈ descendantsList l, directOk m) :
    ((l.map fun c => tbTotalSize (aggRes c).tb).sum =
      (l.map fun c => (aggRes c).totalSize).sum) ∧
    ((l.map fun c => tbTotalCount (aggRes c).tb).sum =
      (l.map fun c => (aggRes c).fileCount).sum) := by
  cases l with
  | nil => exact ⟨rfl, rfl⟩
  | cons c cs =>
    have hc := aggRes_total_ok c (by
      intro m hm
      apply h m
      rw [descendantsList]
      rcases hm with rfl | hm
      · exact List.mem_append.2 (.inl (List.mem_cons_self _ _))
      · exact List.mem_append.2 (.inl (List.mem_cons_of_mem _ hm)))
    have hcs := aggResList_total_ok cs (by
      intro m hm
      apply h m
      rw [descendantsList]
      exact List.mem_append.2 (.inr hm))
    constructor
    · simp only [List.map_cons, List.sum_cons, hc.1, hcs.1]
    · simp only [List.map_cons, List.sum_cons, hc.2, hcs.2]

end

mutual

theorem descendants_trans (n : FolderNode) (m : FolderNode)
    (hm : m ∈ descendants n) (k : FolderNode) (hk : k ∈ descendants m) :
    k ∈ descendants n := by
  cases n with
  | mk i p nm d children ds dc tb =>
    rw [descendants_node] at hm ⊢
    exact descendantsList_trans children m hm k hk

theorem descendantsList_trans (l : List FolderNode) (m : FolderNode)
    (hm : m ∈ descendantsList l) (k : FolderNode) (hk : k ∈ descendants m) :
    k ∈ descendantsList l := by
  cases l with
  | nil => cases hm
  | cons c cs =>
    rw [descendantsList] at hm ⊢
    rcases List.mem_append.1 hm with hl | hr
    · rcases List.mem_cons.1 hl with h1 | hl
      · subst h1
        exact List.mem_append.2 (.inl (List.mem_cons_of_mem _ hk))
      · exact List.mem_append.2
          (.inl (List.mem_cons_of_mem _ (descendants_trans c m hl k hk)))
    · exact List.mem_append.2 (.inr (descendantsList_trans cs m hr k hk))

end

/-- C10: for every FolderStats node in a ScanResult returned by
scanDirectory, the sum over all typeBreakdown entries of their count
field equals the node's fileCount, and the sum over all typeBreakdown
entries of their size field equals the node's totalSize: every counted
file is recorded in exactly one type category with its exact size, at
every aggregation level. -/
theorem c10_breakdown_totals (fs : FS) (opts : ScanOptions)
    (r : ScanResult) (h : scanDirectory fs opts = .ok r) :
    ∀ f ∈ r.folders,
      tbTotalSize f.typeBreakdown = f.totalSize ∧
      tbTotalCount f.typeBreakdown = f.fileCount := by
  intro f hf
  obtain ⟨node, v, c, hw, hr⟩ := scanDirectory_ok_inv fs opts r h
  subst hr
  obtain ⟨m, hm, hfm⟩ := mem_foldersOf node f hf
  subst hfm
  have hok := (walk_direct_invariant fs (opts.maxDepth.getD DEFAULT_MAX_DEPTH)
    (opts.followSymlinks.getD false) (opts.includeHidden.getD false)
    (scanFuel fs)).2.2.2.1 _ _ _ _ _ hw
  have hsub : ∀ k, (k = m ∨ k ∈ descendants m) → directOk k := by
    intro k hk
    rcases hm with rfl | hm
    · exact hok k hk
    · rcases hk with rfl | hk
      · exact hok k (.inr hm)
      · exact hok k (.inr (descendants_trans node m hm k hk))
  have := aggRes_total_ok m hsub
  exact ⟨this.1, this.2⟩

theorem c10_breakdown_totals_witness :
    tbTotalSize tinyFolder.typeBreakdown = tinyFolder.totalSize ∧
    tbTotalCount tinyFolder.typeBreakdown = tinyFolder.fileCount :=
  c10_breakdown_totals tinyFS { rootPath := "/r" } tinyResult (by decide)
    tinyFolder (by decide)

/-- C4: the IPC handler invokes `scanDirectory` without any cancellation
input: the callback it passes is dropped by the one-parameter signature.
Evaluated with the cancellation token already set to true, the scan
still runs to completion and returns a plain success, and a failing scan
surfaces as an `IpcResult.err` carrying only a message string (the
token only selects which terminal progress phase is emitted) — there is
no tagged cancelled failure kind anywhere. -/
theorem c4_cancellation_bug_evaluation :
    handleScanDirectory tinyFS { rootPath := "/r" } true =
      (.ok tinyResult, ["done"]) ∧
    handleScanDirectory unreadableSubdirFS { rootPath := "/r" } true =
      (.err "EACCES: permission denied, scandir", ["cancelled"]) ∧
    handleScanDirectory unreadableSubdirFS { rootPath := "/r" } false =
      (.err "EACCES: permission denied, scandir", []) := by
  decide

/-- C5 counterexample: `/r/a` is a non-root directory whose listing
fails with a permission error, encountered within the depth limit; the
whole scan fails instead of treating it as having zero entries. -/
theorem c5_unreadable_dir_counterexample :
    scanDirectory unreadableSubdirFS { rootPath := "/r" } =
      .error .readdirFailed := by
  decide

/-- C5 amended: an unreadable directory yields zero entries and the scan
continues only where the directory is summed past the depth ceiling
(`sumAllBelow` catches the listing error); a directory within the depth
limit is listed by `walk` with no try/catch, so the error propagates and
the whole scan fails (see the counterexample). -/
theorem c5_unreadable_dir_amended :
    (∀ (fs : FS) (fl hid : Bool) (fuel : Nat) (p : String)
      (v : List String) (c : Nat),
      lookupDir fs.readdir p = none → canon fs p ∉ v →
      sumAllBelow fs fl hid (fuel + 1) p v c =
        .ok (⟨0, 0, tbZero⟩, canon fs p :: v, c)) ∧
    (scanDirectory unreadableSubdirFS
        { rootPath := "/r", maxDepth := some 0 }).map
      (fun r => (r.totalSize, r.totalFileCount, r.folders.length)) =
      .ok (0, 0, 1) := by
  constructor
  · intro fs fl hid fuel p v c hrd hnv
    simp only [sumAllBelow]
    rw [if_neg hnv, hrd]
  · decide

theorem c5_unreadable_dir_amended_witness :
    sumAllBelow unreadableSubdirFS false false 5 "/r/a" ["/r"] 0 =
      .ok (⟨0, 0, tbZero⟩, "/r/a" :: ["/r"], 0) ∧
    (scanDirectory unreadableSubdirFS
        { rootPath := "/r", maxDepth := some 0 }).map
      (fun r => (r.totalSize, r.totalFileCount, r.folders.length)) =
      .ok (0, 0, 1) :=
  ⟨c5_unreadable_dir_amended.1 unreadableSubdirFS false false 4 "/r/a"
      ["/r"] 0 (by decide) (by decide),
   c5_unreadable_dir_amended.2⟩

/-- C6: evaluation of the depth option against the chain `/r/a/b/c`.
With maxDepth absent the scan emits 3 folder nodes (`DEFAULT_MAX_DEPTH
= 2`, so `c` is folded into `b`), with maxDepth 0 or -1 it emits only
the root node, and with maxDepth 3 it emits all 4 — so absent does not
mean unlimited and non-positive means most-limited, contradicting the
documented "≤0 or absent means unlimited depth". -/
theorem c6_depth_option_bug_evaluation :
    (scanDirectory chainFS { rootPath := "/r" }).map
      (fun r => r.folders.length) = .ok 3 ∧
    (scanDirectory chainFS { rootPath := "/r", maxDepth := some 0 }).map
      (fun r => r.folders.length) = .ok 1 ∧
    (scanDirectory chainFS { rootPath := "/r", maxDepth := some (-1) }).map
      (fun r => r.folders.length) = .ok 1 ∧
    (scanDirectory chainFS { rootPath := "/r", maxDepth := some 3 }).map
      (fun r => r.folders.length) = .ok 4 ∧
    DEFAULT_MAX_DEPTH = 2 := by
  decide

/-- C7 counterexample: a scan with the include-per-file-leaves flag set
returns a ScanResult with no FileStats collection at all. -/
theorem c7_files_counterexample :
    (scanDirectory tinyFS
        { rootPath := "/r", includeFiles := some true }).map
      (fun r => r.files) = .ok none := by
  decide

/-- C7 amended: the includeFiles flag is ignored by scanDirectory; the
ScanResult never contains a FileStats collection, whether the flag is
set or unset. -/
theorem c7_files_amended (fs : FS) (opts : ScanOptions) (r : ScanResult)
    (h : scanDirectory fs opts = .ok r) : r.files = none := by
  obtain ⟨node, v, c, hw, hr⟩ := scanDirectory_ok_inv fs opts r h
  subst hr
  rfl

theorem c7_files_amended_witness :
    scanDirectory tinyFS { rootPath := "/r", includeFiles := some true } =
      .ok tinyResult ∧ tinyResult.files = none :=
  ⟨by decide,
   c7_files_amended tinyFS { rootPath := "/r", includeFiles := some true }
     tinyResult (by decide)⟩

/-! ## The per-file cap against a flat directory -/

/-- A flat directory `/r` listing `n` one-byte files. -/
def flatFS (n : Nat) : FS :=
  { realpath := fun _ => none
    readdir := [("/r", List.replicate n ⟨"f", false, false, true⟩)]
    lstat := fun p => if p = "/r" then some ⟨true, false, 0⟩ else none
    stat := fun p => if p = "/r/f" then some ⟨false, true, 1⟩ else none }

/-- The breakdown recording `n` one-byte files of category `other`. -/
def tbOnly (n : Nat) : TB := { other := ⟨n, n⟩ }

theorem flat_walkEntries (N : Nat) (md : Int) (fl hid : Bool) :
    ∀ (n fuel : Nat) (v : List String) (c : Nat), n < fuel →
      walkEntries (flatFS N) md fl hid fuel
        (List.replicate n ⟨"f", false, false, true⟩) "/r" 0 v c =
      .ok (⟨[], n, n, tbOnly n⟩, v, c + n) := by
  intro n
  induction n with
  | zero =>
    intro fuel v c h
    cases fuel with
    | zero => rfl
    | succ k => rfl
  | succ n ih =>
    intro fuel v c h
    obtain ⟨fuel, rfl⟩ :=
      Nat.exists_eq_add_of_le' (show 2 ≤ fuel by omega)
    have hone : walkEntryOne (flatFS N) md fl hid (fuel + 1)
        ⟨"f", false, false, true⟩ "/r" 0 v c =
        .ok (⟨[], 1, 1, tbOnly 1⟩, v, c + 1) := by
      cases hid <;> cases fl <;> rfl
    rw [List.replicate_succ]
    simp only [walkEntries]
    rw [hone]
    rw [show ∀ (x : WalkAcc × List String × Nat)
        (f : WalkAcc × List String × Nat →
          Except ScanErr (WalkAcc × List String × Nat)),
        (Except.ok x >>= f) = f x from fun x f => rfl]
    rw [ih (fuel + 1) v (c + 1) (by omega)]
    rw [show ∀ (x : WalkAcc × List String × Nat)
        (f : WalkAcc × List String × Nat →
          Except ScanErr (WalkAcc × List String × Nat)),
        (Except.ok x >>= f) = f x from fun x f => rfl]
    have htb : mergeBreakdown (tbOnly 1) (tbOnly n) = tbOnly (n + 1) := by
      simp only [mergeBreakdown, tbOnly, tbZero, entryAdd, TB.mk.injEq,
        TypeBreakdownEntry.mk.injEq, true_and, and_true]
      omega
    rw [htb]
    rw [show (1 : Nat) + n = n + 1 from by omega,
      show c + 1 + n = c + (n + 1) from by omega]
    rfl

theorem flat_walk (n : Nat) (md : Int) (fl hid : Bool) (fuel : Nat)
    (hn : n < fuel) :
    walk (flatFS n) md fl hid (fuel + 1) "/r" 0 [] 0 =
      .ok (.mk "/r" "/r" "r" 0 [] n n (tbOnly n), ["/r"], n) := by
  have hbody : walk (flatFS n) md fl hid (fuel + 1) "/r" 0 [] 0 =
      (walkEntries (flatFS n) md fl hid fuel
        (List.replicate n ⟨"f", false, false, true⟩) "/r" 0 ["/r"] 0) >>=
        fun x => .ok (.mk "/r" "/r" "r" 0 x.1.children x.1.directSize
          x.1.directFileCount x.1.tb, x.2.1, x.2.2) := rfl
  rw [hbody, flat_walkEntries n md fl hid n fuel ["/r"] 0 hn,
    show (0 : Nat) + n = n from Nat.zero_add n]
  rfl

/-- The single folder record of a scan of `flatFS n`. -/
def flatFolder (n : Nat) : FolderStats :=
  { id := "/r", path := "/r", name := "r", depth := 0, totalSize := n,
    fileCount := n, subfolderCount := 0, typeBreakdown := tbOnly n,
    childrenIds := [] }

theorem flat_scan (n : Nat) (b : Option Bool) :
    scanDirectory (flatFS n) { rootPath := "/r", includeFiles := b } =
      .ok { rootPath := "/r", generatedAt := "", folders := [flatFolder n],
            totalSize := n, totalFileCount := n, files := none } := by
  have hstep : scanDirectory (flatFS n)
      { rootPath := "/r", includeFiles := b } =
      (walk (flatFS n) 2 false false (scanFuel (flatFS n)) "/r" 0 [] 0) >>=
        fun x =>
          .ok { rootPath := "/r", generatedAt := "",
                folders := foldersOf x.1,
                totalSize := (aggRes x.1).totalSize,
                totalFileCount := (aggRes x.1).fileCount,
                files := none } := rfl
  have hfuel : scanFuel (flatFS n) = 2 * n + 1 + 1 := by
    simp [scanFuel, flatFS]
  rw [hstep, hfuel, flat_walk n 2 false false (2 * n + 1) (by omega)]
  rfl

/-- C3: the cap is a dead letter.  Scanning a flat directory of 10001
one-byte files succeeds and reports the full totals whether or not
per-file leaves are requested — the threshold error thrown at line 198
is swallowed by the `catch` of the same `try` (meant for unreadable
files), the includeFiles flag is never read, and no FileStats
collection is ever produced — while the claim requires the scan with
per-file leaves enabled to fail with a cap-naming error. -/
theorem c3_cap_bug_evaluation :
    (scanDirectory (flatFS 10001)
        { rootPath := "/r", includeFiles := some true }).map
      (fun r => (r.totalFileCount, r.totalSize, r.files, r.folders.length)) =
      .ok (10001, 10001, none, 1) ∧
    (scanDirectory (flatFS 10001)
        { rootPath := "/r", includeFiles := some false }).map
      (fun r => (r.totalFileCount, r.totalSize, r.files, r.folders.length)) =
      .ok (10001, 10001, none, 1) ∧
    MAX_FILE_THRESHOLD < 10001 := by
  refine ⟨?_, ?_, by decide⟩ <;> rw [flat_scan] <;> rfl

/-! ## The fuel allotment is never exhausted -/

/-- Potential of the not-yet-visited part of the `readdir` table:
directories whose canonical path is already visited return immediately
and spawn no further work. -/
def unvisitedWeight (fs : FS) (visited : List String) : Nat :=
  ((fs.readdir.filter fun pr => decide (canon fs pr.1 ∉ visited)).map
    fun pr => 2 * pr.2.length + 1).sum

theorem lookupDir_mem {l : List (String × List Dirent)} {p : String}
    {es : List Dirent} (h : lookupDir l p = some es) : (p, es) ∈ l := by
  induction l with
  | nil => cases h
  | cons x rest ih =>
    obtain ⟨k, v⟩ := x
    rw [lookupDir] at h
    by_cases hk : k = p
    · rw [if_pos hk] at h
      cases h
      subst hk
      exact List.mem_cons_self _ _
    · rw [if_neg hk] at h
      exact List.mem_cons_of_mem _ (ih h)

theorem decTrue {p : Prop} [Decidable p] (h : p) : decide p = true :=
  decide_eq_true h

theorem decNotTrue {p : Prop} [Decidable p] (h : ¬p) :
    ¬(decide p = true) := fun hh => h (of_decide_eq_true hh)

theorem sum_filter_unvisited_anti (fs : FS) (l : List (String × List Dirent))
    {v v' : List String} (hsub : v ⊆ v') :
    ((l.filter fun pr => decide (canon fs pr.1 ∉ v')).map
      fun pr => 2 * pr.2.length + 1).sum ≤
    ((l.filter fun pr => decide (canon fs pr.1 ∉ v)).map
      fun pr => 2 * pr.2.length + 1).sum := by
  induction l with
  | nil => exact Nat.le_refl _
  | cons x l ih =>
    simp only [List.filter_cons]
    by_cases h' : canon fs x.1 ∈ v'
    · rw [if_neg (decNotTrue (fun hno => hno h'))]
      by_cases h : canon fs x.1 ∈ v
      · rw [if_neg (decNotTrue (fun hno => hno h))]
        exact ih
      · rw [if_pos (decTrue h)]
        simp only [List.map_cons, List.sum_cons]
        omega
    · have h : canon fs x.1 ∉ v := fun hc => h' (hsub hc)
      rw [if_pos (decTrue h'), if_pos (decTrue h)]
      simp only [List.map_cons, List.sum_cons]
      omega

theorem unvisitedWeight_anti (fs : FS) {v v' : List String}
    (hsub : v ⊆ v') : unvisitedWeight fs v' ≤ unvisitedWeight fs v :=
  sum_filter_unvisited_anti fs fs.readdir hsub

theorem unvisitedWeight_insert (fs : FS) {p : String} {es : List Dirent}
    {v : List String} (hl : lookupDir fs.readdir p = some es)
    (hnv : canon fs p ∉ v) :
    unvisitedWeight fs (canon fs p :: v) + (2 * es.length + 1) ≤
      unvisitedWeight fs v := by
  have hmem := lookupDir_mem hl
  have main : ∀ (l : List (String × List Dirent)),
      (p, es) ∈ l →
      ((l.filter fun pr => decide (canon fs pr.1 ∉ (canon fs p :: v))).map
        fun pr => 2 * pr.2.length + 1).sum + (2 * es.length + 1) ≤
      ((l.filter fun pr => decide (canon fs pr.1 ∉ v)).map
        fun pr => 2 * pr.2.length + 1).sum := by
    intro l hx
    induction l with
    | nil => cases hx
    | cons y rest ih =>
      simp only [List.filter_cons]
      rcases List.mem_cons.1 hx with h1 | hx'
      · subst h1
        have hin : canon fs p ∈ canon fs p :: v := List.mem_cons_self _ _
        rw [if_neg (decNotTrue (fun hno => hno hin)),
          if_pos (decTrue hnv)]
        simp only [List.map_cons, List.sum_cons]
        have hrest := @sum_filter_unvisited_anti fs rest v
          (canon fs p :: v) (List.subset_cons_self _ _)
        omega
      · by_cases hy : canon fs y.1 ∈ (canon fs p :: v)
        · rw [if_neg (decNotTrue (fun hno => hno hy))]
          by_cases hy2 : canon fs y.1 ∈ v
          · rw [if_neg (decNotTrue (fun hno => hno hy2))]
            exact ih hx'
          · rw [if_pos (decTrue hy2)]
            simp only [List.map_cons, List.sum_cons]
            have := ih hx'
            omega
        · have hy2 : canon fs y.1 ∉ v := fun hc =>
            hy (List.mem_cons_of_mem _ hc)
          rw [if_pos (decTrue hy), if_pos (decTrue hy2)]
          simp only [List.map_cons, List.sum_cons]
          have := ih hx'
          omega
  exact main fs.readdir hmem

/-- A run either fails with the propagated `readdir` error or succeeds
having only grown the visited set; in particular it never exhausts
fuel. -/
def progOk {α : Type} (v : List String)
    (res : Except ScanErr (α × List String × Nat)) : Prop :=
  res = .error .readdirFailed ∨ ∃ out, res = .ok out ∧ v ⊆ out.2.1

theorem scan_no_fuelOut (fs : FS) (md : Int) (fl hid : Bool) :
    ∀ fuel : Nat,
      (∀ p v c, unvisitedWeight fs v < fuel →
        progOk v (sumAllBelow fs fl hid fuel p v c)) ∧
      (∀ e dp v c, unvisitedWeight fs v + 1 < fuel →
        progOk v (sumEntryOne fs fl hid fuel e dp v c)) ∧
      (∀ es dp v c, unvisitedWeight fs v + 2 * es.length < fuel →
        progOk v (sumEntries fs fl hid fuel es dp v c)) ∧
      (∀ p d v c, unvisitedWeight fs v < fuel →
        progOk v (walk fs md fl hid fuel p d v c)) ∧
      (∀ e p d v c, unvisitedWeight fs v + 1 < fuel →
        progOk v (walkEntryOne fs md fl hid fuel e p d v c)) ∧
      (∀ es p d v c, unvisitedWeight fs v + 2 * es.length < fuel →
        progOk v (walkEntries fs md fl hid fuel es p d v c)) := by
  intro fuel
  induction fuel with
  | zero =>
    exact ⟨fun p v c hm => absurd hm (Nat.not_lt_zero _),
      fun e dp v c hm => absurd hm (Nat.not_lt_zero _),
      fun es dp v c hm => absurd hm (Nat.not_lt_zero _),
      fun p d v c hm => absurd hm (Nat.not_lt_zero _),
      fun e p d v c hm => absurd hm (Nat.not_lt_zero _),
      fun es p d v c hm => absurd hm (Nat.not_lt_zero _)⟩
  | succ fuel ih =>
    obtain ⟨ihSum, ihSumOne, ihSumEntries, ihWalk, ihWalkOne,
      ihWalkEntries⟩ := ih
    refine ⟨?_, ?_, ?_, ?_, ?_, ?_⟩
    · -- sumAllBelow
      intro p v c hm
      simp only [sumAllBelow]
      split
      · exact .inr ⟨_, rfl, List.Subset.refl v⟩
      · rename_i hnv
        split
        · exact .inr ⟨_, rfl, List.subset_cons_self _ _⟩
        · rename_i entries heq
          have hdec := unvisitedWeight_insert fs heq hnv
          rcases ihSumEntries entries p (canon fs p :: v) c (by omega) with
            herr | ⟨out, hok, hsub⟩
          · exact .inl herr
          · exact .inr ⟨out, hok, (List.subset_cons_self _ _).trans hsub⟩
    · -- sumEntryOne
      intro e dp v c hm
      simp only [sumEntryOne]
      split
      · exact .inr ⟨_, rfl, List.Subset.refl v⟩
      · split
        · split
          · exact .inr ⟨_, rfl, List.Subset.refl v⟩
          · split
            · exact .inr ⟨_, rfl, List.Subset.refl v⟩
            · split
              · exact ihSum (canon fs (joinPath dp e.name)) v c (by omega)
              · split
                · exact .inr ⟨_, rfl, List.Subset.refl v⟩
                · exact .inr ⟨_, rfl, List.Subset.refl v⟩
        · split
          · exact ihSum (joinPath dp e.name) v c (by omega)
          · split
            · split
              · exact .inr ⟨_, rfl, List.Subset.refl v⟩
              · exact .inr ⟨_, rfl, List.Subset.refl v⟩
            · exact .inr ⟨_, rfl, List.Subset.refl v⟩
    · -- sumEntries
      intro es dp v c hm
      cases es with
      | nil => exact .inr ⟨_, rfl, List.Subset.refl v⟩
      | cons e rest =>
        simp only [sumEntries]
        rcases ihSumOne e dp v c (by simp only [List.length_cons] at hm; omega)
          with herr | ⟨⟨one, v1, c1⟩, hok, hsub⟩
        · rw [herr]
          exact .inl rfl
        · rw [hok]
          have hv1 : unvisitedWeight fs v1 ≤ unvisitedWeight fs v :=
            unvisitedWeight_anti fs hsub
          rcases ihSumEntries rest dp v1 c1
              (by simp only [List.length_cons] at hm; omega) with
            herr2 | ⟨⟨acc, v2, c2⟩, hok2, hsub2⟩
          · rw [show ∀ (x : SumAcc × List String × Nat)
                (f : SumAcc × List String × Nat →
                  Except ScanErr (SumAcc × List String × Nat)),
                (Except.ok x >>= f) = f x from fun x f => rfl]
            rw [herr2]
            exact .inl rfl
          · rw [show ∀ (x : SumAcc × List String × Nat)
                (f : SumAcc × List String × Nat →
                  Except ScanErr (SumAcc × List String × Nat)),
                (Except.ok x >>= f) = f x from fun x f => rfl]
            rw [hok2]
            exact .inr ⟨_, rfl, hsub.trans hsub2⟩
    · -- walk
      intro p d v c hm
      simp only [walk]
      split
      · exact .inr ⟨_, rfl, List.Subset.refl v⟩
      · rename_i hnv
        split
        · exact .inl rfl
        · rename_i entries heq
          have hdec := unvisitedWeight_insert fs heq hnv
          rcases ihWalkEntries entries p d (canon fs p :: v) c (by omega) with
            herr | ⟨⟨acc, v2, c2⟩, hok, hsub⟩
          · rw [herr]
            exact .inl rfl
          · rw [hok]
            exact .inr ⟨_, rfl,
              (List.subset_cons_self _ _).trans hsub⟩
    · -- walkEntryOne
      intro e p d v c hm
      simp only [walkEntryOne]
      split
      · exact .inr ⟨_, rfl, List.Subset.refl v⟩
      · split
        · split
          · exact .inr ⟨_, rfl, List.Subset.refl v⟩
          · split
            · exact .inr ⟨_, rfl, List.Subset.refl v⟩
            · split
              · split
                · rcases ihWalk (canon fs (joinPath p e.name)) (d + 1) v c
                      (by omega) with
                    herr | ⟨⟨child, v1, c1⟩, hok, hsub⟩
                  · rw [herr]
                    exact .inl rfl
                  · rw [hok]
                    exact .inr ⟨_, rfl, hsub⟩
                · rcases ihSum (canon fs (joinPath p e.name)) v c (by omega)
                    with herr | ⟨⟨sub, v1, c1⟩, hok, hsub⟩
                  · rw [herr]
                    exact .inl rfl
                  · rw [hok]
                    exact .inr ⟨_, rfl, hsub⟩
              · split
                · exact .inr ⟨_, rfl, List.Subset.refl v⟩
                · exact .inr ⟨_, rfl, List.Subset.refl v⟩
        · split
          · split
            · rcases ihWalk (joinPath p e.name) (d + 1) v c (by omega) with
                herr | ⟨⟨child, v1, c1⟩, hok, hsub⟩
              · rw [herr]
                exact .inl rfl
              · rw [hok]
                exact .inr ⟨_, rfl, hsub⟩
            · rcases ihSum (joinPath p e.name) v c (by omega) with
                herr | ⟨⟨sub, v1, c1⟩, hok, hsub⟩
              · rw [herr]
                exact .inl rfl
              · rw [hok]
                exact .inr ⟨_, rfl, hsub⟩
          · split
            · split
              · exact .inr ⟨_, rfl, List.Subset.refl v⟩
              · exact .inr ⟨_, rfl, List.Subset.refl v⟩
            · exact .inr ⟨_, rfl, List.Subset.refl v⟩
    · -- walkEntries
      intro es p d v c hm
      cases es with
      | nil => exact .inr ⟨_, rfl, List.Subset.refl v⟩
      | cons e rest =>
        simp only [walkEntries]
        rcases ihWalkOne e p d v c
            (by simp only [List.length_cons] at hm; omega) with
          herr | ⟨⟨one, v1, c1⟩, hok, hsub⟩
        · rw [herr]
          exact .inl rfl
        · rw [hok]
          have hv1 : unvisitedWeight fs v1 ≤ unvisitedWeight fs v :=
            unvisitedWeight_anti fs hsub
          rcases ihWalkEntries rest p d v1 c1
              (by simp only [List.length_cons] at hm; omega) with
            herr2 | ⟨⟨acc, v2, c2⟩, hok2, hsub2⟩
          · rw [show ∀ (x : WalkAcc × List String × Nat)
                (f : WalkAcc × List String × Nat →
                  Except ScanErr (WalkAcc × List String × Nat)),
                (Except.ok x >>= f) = f x from fun x f => rfl]
            rw [herr2]
            exact .inl rfl
          · rw [show ∀ (x : WalkAcc × List String × Nat)
                (f : WalkAcc × List String × Nat →
                  Except ScanErr (WalkAcc × List String × Nat)),
                (Except.ok x >>= f) = f x from fun x f => rfl]
            rw [hok2]
            exact .inr ⟨_, rfl, hsub.trans hsub2⟩

/-- Detects the embedding artifact of exhausted fuel. -/
def fuelExhausted : Except ScanErr ScanResult → Bool
  | .error .fuelOut => true
  | _ => false

theorem unvisitedWeight_nil (fs : FS) :
    unvisitedWeight fs [] + 1 = scanFuel fs := by
  unfold unvisitedWeight scanFuel
  have : (fs.readdir.filter fun pr => decide (canon fs pr.1 ∉ ([] : List String))) =
      fs.readdir :=
    List.filter_eq_self.2 fun a _ => decTrue (List.not_mem_nil _)
  rw [this]

/-- C8: for every directory tree containing a symlink that points back
to an ancestor, a scan with follow-symlinks enabled terminates and
produces a finite ScanResult (formally: the recursion never exhausts
the fuel allotment, on any modelled filesystem), and the cyclic subtree
contributes zero additional size beyond its first visit, because each
directory's canonical real path is visited at most once per scan:
`cycFS` holds a 100-byte file and a symlink ring back to the root, and
the scan returns totals of 100 bytes and 1 file over 3 folder
records. -/
theorem c8_cycle_termination :
    (∀ (fs : FS) (opts : ScanOptions),
      fuelExhausted (scanDirectory fs opts) = false) ∧
    (scanDirectory cycFS
        { rootPath := "/r", followSymlinks := some true }).map
      (fun r => (r.totalSize, r.totalFileCount, r.folders.length)) =
      .ok (100, 1, 3) := by
  constructor
  · intro fs opts
    cases hst : fs.lstat opts.rootPath with
    | none => simp [scanDirectory, hst, fuelExhausted]
    | some st =>
      by_cases hd : st.isDirectory
      · simp only [scanDirectory, hst, hd, Bool.not_true,
          Bool.false_eq_true, if_false]
        have hm : unvisitedWeight fs [] < scanFuel fs := by
          have := unvisitedWeight_nil fs
          omega
        rcases (scan_no_fuelOut fs (opts.maxDepth.getD DEFAULT_MAX_DEPTH)
            (opts.followSymlinks.getD false) (opts.includeHidden.getD false)
            (scanFuel fs)).2.2.2.1 opts.rootPath 0 [] 0 hm with
          herr | ⟨⟨node, v2, c2⟩, hok, hsub⟩
        · rw [herr]
          rfl
        · rw [hok]
          rfl
      · simp only [Bool.not_eq_true] at hd
        simp [scanDirectory, hst, hd, fuelExhausted]
  · decide

/-- The depth-limited walker and the depth-free summation agree: a
successful `walk` yields a node whose aggregated totals, final visited
set and final file counter are exactly what `sumAllBelow` computes for
the same directory from the same state.  `sumAllBelow` does not read
`maxDepth`, so this is the heart of depth invariance. -/
theorem walk_sum_agree (fs : FS) (md : Int) (fl hid : Bool) :
    ∀ fuel : Nat,
      (∀ p d v c node v' c',
        walk fs md fl hid fuel p d v c = .ok (node, v', c') →
        ∃ stb, sumAllBelow fs fl hid fuel p v c =
          .ok (⟨(aggRes node).totalSize, (aggRes node).fileCount, stb⟩,
            v', c')) ∧
      (∀ e p d v c one v' c',
        walkEntryOne fs md fl hid fuel e p d v c = .ok (one, v', c') →
        ∃ stb, sumEntryOne fs fl hid fuel e p v c =
          .ok (⟨one.directSize +
              ((one.children.map fun ch => (aggRes ch).totalSize)).sum,
            one.directFileCount +
              ((one.children.map fun ch => (aggRes ch).fileCount)).sum,
            stb⟩, v', c')) ∧
      (∀ es p d v c acc v' c',
        walkEntries fs md fl hid fuel es p d v c = .ok (acc, v', c') →
        ∃ stb, sumEntries fs fl hid fuel es p v c =
          .ok (⟨acc.directSize +
              ((acc.children.map fun ch => (aggRes ch).totalSize)).sum,
            acc.directFileCount +
              ((acc.children.map fun ch => (aggRes ch).fileCount)).sum,
            stb⟩, v', c')) := by
  intro fuel
  induction fuel with
  | zero =>
    refine ⟨?_, ?_, ?_⟩
    · intro p d v c node v' c' h
      cases h
    · intro e p d v c one v' c' h
      cases h
    · intro es p d v c acc v' c' h
      cases es with
      | nil =>
        cases h
        exact ⟨tbZero, rfl⟩
      | cons e rest => cases h
  | succ fuel ih =>
    obtain ⟨ihW, ihWO, ihWE⟩ := ih
    refine ⟨?_, ?_, ?_⟩
    · -- walk vs sumAllBelow
      intro p d v c node v' c' h
      simp only [walk] at h
      simp only [sumAllBelow]
      split at h
      · rename_i hvis
        cases h
        rw [if_pos hvis]
        exact ⟨tbZero, rfl⟩
      · rename_i hvis
        rw [if_neg hvis]
        split at h
        · cases h
        · rename_i entries heq
          obtain ⟨⟨acc, v2, c2⟩, hw, hfin⟩ := exceptBind_ok_inv h
          cases hfin
          obtain ⟨stb, hsum⟩ := ihWE _ _ _ _ _ _ _ _ hw
          refine ⟨stb, ?_⟩
          rw [aggRes_node]
          exact hsum
    · -- walkEntryOne vs sumEntryOne
      intro e p d v c one v' c' h
      simp only [walkEntryOne] at h
      simp only [sumEntryOne]
      split at h
      · rename_i hhid
        cases h
        rw [if_pos hhid]
        exact ⟨tbZero, rfl⟩
      · rename_i hhid
        rw [if_neg hhid]
        split at h
        · rename_i hsym
          rw [if_pos hsym]
          split at h
          · rename_i hnf
            cases h
            rw [if_pos hnf]
            exact ⟨tbZero, rfl⟩
          · rename_i hnf
            rw [if_neg hnf]
            split at h
            · rename_i hst
              cases h
              exact ⟨tbZero, rfl⟩
            · rename_i st hst
              split at h
              · rename_i hdir
                rw [if_pos hdir]
                split at h
                · obtain ⟨⟨child, v1, c1⟩, hw, hfin⟩ := exceptBind_ok_inv h
                  cases hfin
                  obtain ⟨stb, hsum⟩ := ihW _ _ _ _ _ _ _ hw
                  refine ⟨stb, ?_⟩
                  simp only [List.map_cons, List.map_nil, List.sum_cons,
                    List.sum_nil, Nat.add_zero, Nat.zero_add]
                  exact hsum
                · obtain ⟨⟨sub, v1, c1⟩, hs, hfin⟩ := exceptBind_ok_inv h
                  cases hfin
                  refine ⟨sub.tb, ?_⟩
                  simp only [List.map_nil, List.sum_nil, Nat.add_zero]
                  exact hs
              · rename_i hdir
                rw [if_neg hdir]
                split at h
                · rename_i hfile
                  cases h
                  rw [if_pos hfile]
                  exact ⟨_, rfl⟩
                · rename_i hfile
                  cases h
                  rw [if_neg hfile]
                  exact ⟨tbZero, rfl⟩
        · rename_i hsym
          rw [if_neg hsym]
          split at h
          · rename_i hdir
            rw [if_pos hdir]
            split at h
            · obtain ⟨⟨child, v1, c1⟩, hw, hfin⟩ := exceptBind_ok_inv h
              cases hfin
              obtain ⟨stb, hsum⟩ := ihW _ _ _ _ _ _ _ hw
              refine ⟨stb, ?_⟩
              simp only [List.map_cons, List.map_nil, List.sum_cons,
                List.sum_nil, Nat.add_zero, Nat.zero_add]
              exact hsum
            · obtain ⟨⟨sub, v1, c1⟩, hs, hfin⟩ := exceptBind_ok_inv h
              cases hfin
              refine ⟨sub.tb, ?_⟩
              simp only [List.map_nil, List.sum_nil, Nat.add_zero]
              exact hs
          · rename_i hdir
            rw [if_neg hdir]
            split at h
            · rename_i hfile
              rw [if_pos hfile]
              split at h
              · rename_i hstat
                cases h
                exact ⟨tbZero, rfl⟩
              · rename_i st hstat
                cases h
                exact ⟨_, rfl⟩
            · rename_i hfile
              cases h
              rw [if_neg hfile]
              exact ⟨tbZero, rfl⟩
    · -- walkEntries vs sumEntries
      intro es p d v c acc v' c' h
      cases es with
      | nil =>
        cases h
        exact ⟨tbZero, rfl⟩
      | cons e rest =>
        simp only [walkEntries] at h
        simp only [sumEntries]
        obtain ⟨⟨one, v1, c1⟩, hone, h⟩ := exceptBind_ok_inv h
        obtain ⟨⟨acc2, v2, c2⟩, hrest, h⟩ := exceptBind_ok_inv h
        cases h
        obtain ⟨stb1, hsone⟩ := ihWO _ _ _ _ _ _ _ _ hone
        obtain ⟨stb2, hsrest⟩ := ihWE _ _ _ _ _ _ _ _ hrest
        refine ⟨mergeBreakdown stb1 stb2, ?_⟩
        rw [hsone]
        rw [show ∀ (x : SumAcc × List String × Nat)
            (f : SumAcc × List String × Nat →
              Except ScanErr (SumAcc × List String × Nat)),
            (Except.ok x >>= f) = f x from fun x f => rfl]
        rw [hsrest]
        rw [show ∀ (x : SumAcc × List String × Nat)
            (f : SumAcc × List String × Nat →
              Except ScanErr (SumAcc × List String × Nat)),
            (Except.ok x >>= f) = f x from fun x f => rfl]
        refine congrArg Except.ok ?_
        refine Prod.ext ?_ rfl
        show SumAcc.mk _ _ _ = SumAcc.mk _ _ _
        simp only [SumAcc.mk.injEq, List.map_append, List.sum_append]
        exact ⟨by omega, by omega, trivial⟩

/-- The `ScanResult` a depth-`d` scan of `oneSubdirFS` produces
(extracted from the `Except`; the fallback is never reached for the
depths used below). -/
def oneSubdirResultAt (d : Option Int) : ScanResult :=
  (scanDirectory oneSubdirFS { rootPath := "/r", maxDepth := d }).toOption.getD
    { rootPath := "", generatedAt := "", folders := [], totalSize := 0,
      totalFileCount := 0, files := none }

/-- C2: depth invariance of totals.  Two scans of the same tree whose
configurations differ only in the maximum-depth value and that both
succeed report the same root `totalSize` and `totalFileCount`: a
subdirectory past the ceiling is not emitted as a node, but
`sumAllBelow` folds its entire contents into the last visible
ancestor's direct statistics, and `sumAllBelow` never reads
`maxDepth`. -/
theorem c2_depth_invariance (fs : FS) (o : ScanOptions) (d1 d2 : Option Int)
    (r1 r2 : ScanResult)
    (h1 : scanDirectory fs { o with maxDepth := d1 } = .ok r1)
    (h2 : scanDirectory fs { o with maxDepth := d2 } = .ok r2) :
    r1.totalSize = r2.totalSize ∧ r1.totalFileCount = r2.totalFileCount := by
  obtain ⟨n1, v1, c1, hw1, hr1⟩ := scanDirectory_ok_inv _ _ _ h1
  obtain ⟨n2, v2, c2, hw2, hr2⟩ := scanDirectory_ok_inv _ _ _ h2
  obtain ⟨stb1, hs1⟩ :=
    (walk_sum_agree fs (d1.getD DEFAULT_MAX_DEPTH)
      (o.followSymlinks.getD false) (o.includeHidden.getD false)
      (scanFuel fs)).1 _ _ _ _ _ _ _ hw1
  obtain ⟨stb2, hs2⟩ :=
    (walk_sum_agree fs (d2.getD DEFAULT_MAX_DEPTH)
      (o.followSymlinks.getD false) (o.includeHidden.getD false)
      (scanFuel fs)).1 _ _ _ _ _ _ _ hw2
  have key := hs1.symm.trans hs2
  simp only [Except.ok.injEq, Prod.mk.injEq, SumAcc.mk.injEq] at key
  subst hr1
  subst hr2
  exact ⟨key.1.1, key.1.2.1⟩

/-- Witness for C2: `oneSubdirFS` scanned at depth 0 and at depth 5
(one emitted node versus two) reports the same totals, 7 bytes and one
file. -/
theorem c2_depth_invariance_witness :
    (oneSubdirResultAt (some 0)).totalSize =
        (oneSubdirResultAt (some 5)).totalSize ∧
      (oneSubdirResultAt (some 0)).totalFileCount =
        (oneSubdirResultAt (some 5)).totalFileCount :=
  c2_depth_invariance oneSubdirFS { rootPath := "/r" } (some 0) (some 5)
    (oneSubdirResultAt (some 0)) (oneSubdirResultAt (some 5))
    (by decide) (by decide)
